import Mathlib

/-!
Verification of the isomesh core (UniformGrid lattice addressing and
edge-crossing engine, QEF solver family) against its specification.

The C++ sources are shallowly embedded: `double` values are modelled by `ℚ`
(all claims under scrutiny concern sign tests, exact index arithmetic and
exact least-squares algebra, none of which depend on rounding), `uint32_t`
index arithmetic is modelled by `ℕ` with explicit wrap-around (`% 2^32`)
where an intermediate value could exceed the machine range, and `int32_t`
lattice coordinates are modelled by `ℤ`.
-/

namespace Isomesh

/-- Voxel materials enumeration (`common.hpp`): Empty = air. -/
inductive Material where
  | Empty : Material
  | Stone : Material
  | Soil : Material
deriving DecidableEq, Repr

/-- A 3-component vector of rationals, modelling `glm::dvec3`. -/
structure Vec3 where
  x : ℚ
  y : ℚ
  z : ℚ
deriving DecidableEq, Repr

instance : Zero Vec3 where
  zero := ⟨0, 0, 0⟩

instance : Add Vec3 where
  add a b := ⟨a.x + b.x, a.y + b.y, a.z + b.z⟩

instance : Sub Vec3 where
  sub a b := ⟨a.x - b.x, a.y - b.y, a.z - b.z⟩

instance : SMul ℚ Vec3 where
  smul c v := ⟨c * v.x, c * v.y, c * v.z⟩

/-- Dot product of two vectors. -/
def dot (a b : Vec3) : ℚ := a.x * b.x + a.y * b.y + a.z * b.z

/-- Squared Euclidean norm. -/
def norm2 (v : Vec3) : ℚ := dot v v

/-- Scalar field collaborator (`ScalarField`): signed value, gradient and
material classification, consumed as a black box by the grid. -/
structure ScalarField where
  f : Vec3 → ℚ
  grad : Vec3 → Vec3
  material : Vec3 → ℚ → Material

/-- Per-axis root finder collaborator (`ZeroFinder`): given the fixed
coordinates, the two varying-coordinate bounds, the two signed endpoint
values and the field, returns the coordinate of the zero crossing. -/
structure ZeroFinder where
  findAlongX : ℚ → ℚ → ℚ → ℚ → ℚ → ℚ → ScalarField → ℚ
  findAlongY : ℚ → ℚ → ℚ → ℚ → ℚ → ℚ → ScalarField → ℚ
  findAlongZ : ℚ → ℚ → ℚ → ℚ → ℚ → ℚ → ScalarField → ℚ

/-! ## Grid addressing (`grid.cpp`)

All addressing functions are parametrised by the grid size `s` and the
half-size `h` (in the C++ object these are `m_size : uint32_t` and
`m_halfSize = int32_t(size) / 2`). -/

/-- `UniformGrid::pointToIndex`:
`idx = (uint32(y+h)*(s+1) + uint32(x+h))*(s+1) + uint32(z+h)`.
For coordinates satisfying the `isVertexInGrid` precondition every cast
operand is non-negative (so `Int.toNat` coincides with the `uint32_t` cast)
and, for the constructor-accepted sizes (`s ≤ 1024`), the result is below
`2^32`, so plain `ℕ` arithmetic coincides with `uint32_t` arithmetic. -/
def pointToIndex (s : ℕ) (h : ℤ) (x y z : ℤ) : ℕ :=
  ((y + h).toNat * (s + 1) + (x + h).toNat) * (s + 1) + (z + h).toNat

/-- `UniformGrid::indexToPoint`: peels `z`, `x`, `y` off `idx` by
division and remainder by `s+1`. -/
def indexToPoint (s : ℕ) (h : ℤ) (idx : ℕ) : ℤ × ℤ × ℤ :=
  ((idx / (s + 1) % (s + 1) : ℕ) - h,
   (idx / (s + 1) / (s + 1) : ℕ) - h,
   (idx % (s + 1) : ℕ) - h)

/-- `UniformGrid::isVertexInGrid`: every coordinate within `[-h, h]`. -/
def isVertexInGrid (h : ℤ) (x y z : ℤ) : Prop :=
  |x| ≤ h ∧ |y| ≤ h ∧ |z| ≤ h

instance (h x y z : ℤ) : Decidable (isVertexInGrid h x y z) := by
  unfold isVertexInGrid; infer_instance

/-- `UniformGrid::isEdgeInGrid<0>`. -/
def isEdgeInGridX (h : ℤ) (p : ℤ × ℤ × ℤ) : Prop :=
  ¬(p.1 < -h ∨ p.1 ≥ h) ∧ ¬(|p.2.1| > h) ∧ ¬(|p.2.2| > h)

/-- `UniformGrid::isEdgeInGrid<1>`. -/
def isEdgeInGridY (h : ℤ) (p : ℤ × ℤ × ℤ) : Prop :=
  ¬(p.2.1 < -h ∨ p.2.1 ≥ h) ∧ ¬(|p.1| > h) ∧ ¬(|p.2.2| > h)

/-- `UniformGrid::isEdgeInGrid<2>`. -/
def isEdgeInGridZ (h : ℤ) (p : ℤ × ℤ × ℤ) : Prop :=
  ¬(p.2.2 < -h ∨ p.2.2 ≥ h) ∧ ¬(|p.1| > h) ∧ ¬(|p.2.1| > h)

instance (h : ℤ) (p : ℤ × ℤ × ℤ) : Decidable (isEdgeInGridX h p) := by
  unfold isEdgeInGridX; infer_instance

instance (h : ℤ) (p : ℤ × ℤ × ℤ) : Decidable (isEdgeInGridY h p) := by
  unfold isEdgeInGridY; infer_instance

instance (h : ℤ) (p : ℤ × ℤ × ℤ) : Decidable (isEdgeInGridZ h p) := by
  unfold isEdgeInGridZ; infer_instance

/-- `UniformGrid::isCellInGrid`: all coordinates in `[-h, h)`. -/
def isCellInGrid (h : ℤ) (p : ℤ × ℤ × ℤ) : Prop :=
  ¬(p.1 < -h ∨ p.2.1 < -h ∨ p.2.2 < -h) ∧ ¬(p.1 ≥ h ∨ p.2.1 ≥ h ∨ p.2.2 ≥ h)

instance (h : ℤ) (p : ℤ × ℤ × ℤ) : Decidable (isCellInGrid h p) := by
  unfold isCellInGrid; infer_instance

/-- The value of `pointToIndex`, read back in `ℤ`, for in-grid vertices. -/
theorem pointToIndex_eq_int (s : ℕ) (h x y z : ℤ)
    (hx : -h ≤ x) (hy : -h ≤ y) (hz : -h ≤ z) :
    (pointToIndex s h x y z : ℤ) = ((y + h) * (s + 1) + (x + h)) * (s + 1) + (z + h) := by
  unfold pointToIndex
  push_cast [Int.toNat_of_nonneg (by omega : (0:ℤ) ≤ y + h),
    Int.toNat_of_nonneg (by omega : (0:ℤ) ≤ x + h),
    Int.toNat_of_nonneg (by omega : (0:ℤ) ≤ z + h)]
  ring

/-- In-grid vertices map strictly below `(s+1)^3` (with `s = 2h`). -/
theorem pointToIndex_lt (s : ℕ) (h x y z : ℤ) (hs : (s : ℤ) = 2 * h)
    (hv : isVertexInGrid h x y z) :
    pointToIndex s h x y z < (s + 1) * (s + 1) * (s + 1) := by
  obtain ⟨hx, hy, hz⟩ := hv
  rw [abs_le] at hx hy hz
  have hb : (pointToIndex s h x y z : ℤ) < ((s : ℤ) + 1) * ((s : ℤ) + 1) * ((s : ℤ) + 1) := by
    rw [pointToIndex_eq_int s h x y z hx.1 hy.1 hz.1]
    have h1 : y + h ≤ (s : ℤ) := by omega
    have h2 : x + h ≤ (s : ℤ) := by omega
    have h3 : z + h < (s : ℤ) + 1 := by omega
    have h4 : (0:ℤ) ≤ x + h := by omega
    have h5 : (0:ℤ) ≤ y + h := by omega
    nlinarith [sq_nonneg ((s : ℤ) + 1)]
  exact_mod_cast hb

/-- Round trip: `indexToPoint` inverts `pointToIndex` on in-grid vertices. -/
theorem indexToPoint_pointToIndex (s : ℕ) (h x y z : ℤ) (hs : (s : ℤ) = 2 * h)
    (hv : isVertexInGrid h x y z) :
    indexToPoint s h (pointToIndex s h x y z) = (x, y, z) := by
  obtain ⟨hx, hy, hz⟩ := hv
  rw [abs_le] at hx hy hz
  unfold pointToIndex indexToPoint
  have hS : 0 < s + 1 := Nat.succ_pos s
  set a := (y + h).toNat with ha
  set b := (x + h).toNat with hb
  set c := (z + h).toNat with hc
  have hau : a ≤ s := by omega
  have hbu : b ≤ s := by omega
  have hcu : c ≤ s := by omega
  have key : (a * (s + 1) + b) * (s + 1) + c = c + (s + 1) * (b + (s + 1) * a) := by ring
  rw [key]
  have e1 : (c + (s + 1) * (b + (s + 1) * a)) % (s + 1) = c := by
    rw [Nat.add_mul_mod_self_left, Nat.mod_eq_of_lt (by omega)]
  have e2 : (c + (s + 1) * (b + (s + 1) * a)) / (s + 1) = b + (s + 1) * a := by
    rw [Nat.add_mul_div_left _ _ hS, Nat.div_eq_of_lt (by omega), Nat.zero_add]
  rw [e1, e2]
  have e3 : (b + (s + 1) * a) % (s + 1) = b := by
    rw [Nat.add_mul_mod_self_left, Nat.mod_eq_of_lt (by omega)]
  have e4 : (b + (s + 1) * a) / (s + 1) = a := by
    rw [Nat.add_mul_div_left _ _ hS, Nat.div_eq_of_lt (by omega), Nat.zero_add]
  rw [e3, e4]
  refine Prod.ext ?_ (Prod.ext ?_ ?_) <;> simp <;> omega

/-- `indexToPoint` lands on an in-grid vertex and `pointToIndex` undoes it,
for every index below `(s+1)^3` (with `s = 2h`, `0 ≤ h`). -/
theorem pointToIndex_indexToPoint (s : ℕ) (h : ℤ) (idx : ℕ) (hs : (s : ℤ) = 2 * h)
    (hidx : idx < (s + 1) * (s + 1) * (s + 1)) :
    isVertexInGrid h (indexToPoint s h idx).1 (indexToPoint s h idx).2.1
      (indexToPoint s h idx).2.2 ∧
    pointToIndex s h (indexToPoint s h idx).1 (indexToPoint s h idx).2.1
      (indexToPoint s h idx).2.2 = idx := by
  have hh : 0 ≤ h := by omega
  unfold indexToPoint
  dsimp only
  have hS : 0 < s + 1 := Nat.succ_pos s
  set c := idx % (s + 1) with hc
  set q1 := idx / (s + 1) with hq1
  set b := q1 % (s + 1) with hb
  set q2 := q1 / (s + 1) with hq2
  have hcd : (s + 1) * q1 + c = idx := Nat.div_add_mod idx (s + 1)
  have hbd : (s + 1) * q2 + b = q1 := Nat.div_add_mod q1 (s + 1)
  have hclt : c < s + 1 := Nat.mod_lt _ hS
  have hblt : b < s + 1 := Nat.mod_lt _ hS
  have hq1lt : q1 < (s + 1) * (s + 1) := by
    apply Nat.div_lt_of_lt_mul
    rw [← Nat.mul_assoc]
    exact hidx
  have hq2lt : q2 < s + 1 := Nat.div_lt_of_lt_mul hq1lt
  clear_value c q1 b q2
  clear hc hq1 hb hq2 hidx hq1lt
  constructor
  · refine ⟨?_, ?_, ?_⟩ <;> rw [abs_le] <;> constructor <;> omega
  · unfold pointToIndex
    have t1 : ((q2 : ℤ) - h + h).toNat = q2 := by omega
    have t2 : ((b : ℤ) - h + h).toNat = b := by omega
    have t3 : ((c : ℤ) - h + h).toNat = c := by omega
    rw [t1, t2, t3]
    calc (q2 * (s + 1) + b) * (s + 1) + c
        = (s + 1) * ((s + 1) * q2 + b) + c := by ring
      _ = (s + 1) * q1 + c := by rw [hbd]
      _ = idx := hcd

/-- C2. For every lattice coordinate with all components in `[-h, h]`,
`pointToIndex` equals `((y+h)(s+1) + (x+h))(s+1) + (z+h)`; this mapping is a
bijection between in-grid lattice coordinates and indices in `[0, (s+1)^3)`;
and `indexToPoint` inverts it. -/
theorem pointToIndex_spec (s : ℕ) (h : ℤ) (hs : (s : ℤ) = 2 * h) :
    (∀ x y z : ℤ, isVertexInGrid h x y z →
      (pointToIndex s h x y z : ℤ) = ((y + h) * (s + 1) + (x + h)) * (s + 1) + (z + h) ∧
      pointToIndex s h x y z < (s + 1) * (s + 1) * (s + 1) ∧
      indexToPoint s h (pointToIndex s h x y z) = (x, y, z)) ∧
    (∀ x y z x' y' z' : ℤ, isVertexInGrid h x y z → isVertexInGrid h x' y' z' →
      pointToIndex s h x y z = pointToIndex s h x' y' z' →
      (x, y, z) = (x', y', z')) ∧
    (∀ idx : ℕ, idx < (s + 1) * (s + 1) * (s + 1) →
      ∃ x y z : ℤ, isVertexInGrid h x y z ∧ pointToIndex s h x y z = idx) := by
  refine ⟨?_, ?_, ?_⟩
  · intro x y z hv
    obtain ⟨hx, hy, hz⟩ := hv
    rw [abs_le] at hx hy hz
    exact ⟨pointToIndex_eq_int s h x y z hx.1 hy.1 hz.1,
      pointToIndex_lt s h x y z hs ⟨abs_le.mpr hx, abs_le.mpr hy, abs_le.mpr hz⟩,
      indexToPoint_pointToIndex s h x y z hs ⟨abs_le.mpr hx, abs_le.mpr hy, abs_le.mpr hz⟩⟩
  · intro x y z x' y' z' hv hv' heq
    have r1 := indexToPoint_pointToIndex s h x y z hs hv
    have r2 := indexToPoint_pointToIndex s h x' y' z' hs hv'
    rw [heq, r2] at r1
    exact r1.symm
  · intro idx hidx
    obtain ⟨hv, hb⟩ := pointToIndex_indexToPoint s h idx hs hidx
    exact ⟨_, _, _, hv, hb⟩

/-- Witness for C2 at `s = 2`, `h = 1`, coordinates `(1, -1, 0)`. -/
theorem pointToIndex_spec_witness :
    (pointToIndex 2 1 1 (-1) 0 : ℤ) =
      (((-1) + 1) * (2 + 1) + (1 + 1)) * (2 + 1) + (0 + 1) ∧
    indexToPoint 2 1 (pointToIndex 2 1 1 (-1) 0) = (1, -1, 0) := by
  have hmain := (pointToIndex_spec 2 1 (by norm_num)).1 1 (-1) 0 (by decide)
  exact ⟨hmain.1, hmain.2.2⟩

/-! ## `UniformGrid::fill` -/

/-- Modelled from the spec: `localToGlobal` (declared in the grid header,
which is absent from `src/`) maps lattice coordinates to world space using
the grid's world-space origin and uniform step (spec §3). The running
`call_pos` accumulator of `fill` computes exactly these points in exact
arithmetic. -/
def localToGlobal (g : Vec3) (st : ℚ) (x y z : ℤ) : Vec3 :=
  ⟨g.x + st * x, g.y + st * y, g.z + st * z⟩

/-- The sampled field value at a lattice vertex (`values[idx]` in `fill`). -/
def valAt (f : ScalarField) (g : Vec3) (st : ℚ) (x y z : ℤ) : ℚ :=
  f.f (localToGlobal g st x y z)

/-- The material stored at a lattice vertex by the first pass of `fill`:
`if (values[idx] > 0) m_mat[idx] = Empty; else m_mat[idx] = f.material (call_pos, values[idx])`. -/
def matAt (f : ScalarField) (g : Vec3) (st : ℚ) (x y z : ℤ) : Material :=
  if 0 < valAt f g st x y z then Material.Empty
  else f.material (localToGlobal g st x y z) (valAt f g st x y z)

/-- One recorded edge crossing (argument list of `EdgeStorage::addEdge` as
invoked by `fill`: lesser-endpoint lattice coordinates, surface gradient at
the crossing, fractional offset along the edge, axis, the `sign1` flag
telling whether the lesser endpoint is the solid side, and the material
carried by the solid endpoint). -/
structure EdgeEntry where
  x : ℤ
  y : ℤ
  z : ℤ
  grad : Vec3
  offset : ℚ
  axis : ℕ
  solid : Bool
  mat : Material
deriving DecidableEq, Repr

/-- The body of the X-edge loop of `fill` for one lattice edge: records a
crossing iff the endpoint signs (`value ≤ 0`) differ. -/
def mkEdgeX (f : ScalarField) (sv : ZeroFinder) (g : Vec3) (st : ℚ)
    (x y z : ℤ) : Option EdgeEntry :=
  let v1 := valAt f g st x y z
  let v2 := valAt f g st (x + 1) y z
  let sign1 := decide (v1 ≤ 0)
  let sign2 := decide (v2 ≤ 0)
  if sign1 ≠ sign2 then
    let p := localToGlobal g st x y z
    let x0 := p.x
    let x1 := p.x + st
    let root := sv.findAlongX x0 p.y p.z x1 v1 v2 f
    some ⟨x, y, z, f.grad ⟨root, p.y, p.z⟩, (root - x0) / st, 0, sign1,
      if sign1 then matAt f g st x y z else matAt f g st (x + 1) y z⟩
  else none

/-- The body of the Y-edge loop of `fill` for one lattice edge. -/
def mkEdgeY (f : ScalarField) (sv : ZeroFinder) (g : Vec3) (st : ℚ)
    (x y z : ℤ) : Option EdgeEntry :=
  let v1 := valAt f g st x y z
  let v2 := valAt f g st x (y + 1) z
  let sign1 := decide (v1 ≤ 0)
  let sign2 := decide (v2 ≤ 0)
  if sign1 ≠ sign2 then
    let p := localToGlobal g st x y z
    let y0 := p.y
    let y1 := p.y + st
    let root := sv.findAlongY p.x y0 p.z y1 v1 v2 f
    some ⟨x, y, z, f.grad ⟨p.x, root, p.z⟩, (root - y0) / st, 1, sign1,
      if sign1 then matAt f g st x y z else matAt f g st x (y + 1) z⟩
  else none

/-- The body of the Z-edge loop of `fill` for one lattice edge. -/
def mkEdgeZ (f : ScalarField) (sv : ZeroFinder) (g : Vec3) (st : ℚ)
    (x y z : ℤ) : Option EdgeEntry :=
  let v1 := valAt f g st x y z
  let v2 := valAt f g st x y (z + 1)
  let sign1 := decide (v1 ≤ 0)
  let sign2 := decide (v2 ≤ 0)
  if sign1 ≠ sign2 then
    let p := localToGlobal g st x y z
    let z0 := p.z
    let z1 := p.z + st
    let root := sv.findAlongZ p.x p.y z0 z1 v1 v2 f
    some ⟨x, y, z, f.grad ⟨p.x, p.y, root⟩, (root - z0) / st, 2, sign1,
      if sign1 then matAt f g st x y z else matAt f g st x y (z + 1)⟩
  else none

/-- Lattice coordinates `[-h, h]` in increasing order (full loop range). -/
def rangeClosed (h : ℕ) : List ℤ :=
  (List.range (2 * h + 1)).map fun i : ℕ => (i : ℤ) - (h : ℤ)

/-- Lattice coordinates `[-h, h)` in increasing order (the deliberately
shortened loop range along the scanned axis). -/
def rangeOpen (h : ℕ) : List ℤ :=
  (List.range (2 * h)).map fun i : ℕ => (i : ℤ) - (h : ℤ)

/-- The `m_edgeX` list rebuilt by `fill` (loop nest `y`, `x < h`, `z`). -/
def edgeScanX (h : ℕ) (f : ScalarField) (sv : ZeroFinder) (g : Vec3) (st : ℚ) :
    List EdgeEntry :=
  (rangeClosed h).flatMap fun y =>
    (rangeOpen h).flatMap fun x =>
      (rangeClosed h).filterMap fun z => mkEdgeX f sv g st x y z

/-- The `m_edgeY` list rebuilt by `fill` (loop nest `y < h`, `x`, `z`). -/
def edgeScanY (h : ℕ) (f : ScalarField) (sv : ZeroFinder) (g : Vec3) (st : ℚ) :
    List EdgeEntry :=
  (rangeOpen h).flatMap fun y =>
    (rangeClosed h).flatMap fun x =>
      (rangeClosed h).filterMap fun z => mkEdgeY f sv g st x y z

/-- The `m_edgeZ` list rebuilt by `fill` (loop nest `y`, `x`, `z < h`). -/
def edgeScanZ (h : ℕ) (f : ScalarField) (sv : ZeroFinder) (g : Vec3) (st : ℚ) :
    List EdgeEntry :=
  (rangeClosed h).flatMap fun y =>
    (rangeClosed h).flatMap fun x =>
      (rangeOpen h).filterMap fun z => mkEdgeZ f sv g st x y z

theorem mem_rangeClosed {h : ℕ} {a : ℤ} : a ∈ rangeClosed h ↔ -(h : ℤ) ≤ a ∧ a ≤ h := by
  unfold rangeClosed
  simp only [List.mem_map, List.mem_range]
  constructor
  · rintro ⟨i, hi, rfl⟩
    omega
  · rintro ⟨h1, h2⟩
    exact ⟨(a + h).toNat, by omega, by omega⟩

theorem mem_rangeOpen {h : ℕ} {a : ℤ} : a ∈ rangeOpen h ↔ -(h : ℤ) ≤ a ∧ a < h := by
  unfold rangeOpen
  simp only [List.mem_map, List.mem_range]
  constructor
  · rintro ⟨i, hi, rfl⟩
    omega
  · rintro ⟨h1, h2⟩
    exact ⟨(a + h).toNat, by omega, by omega⟩

/-- Field projections of an entry produced by the X-edge loop body. -/
theorem mkEdgeX_some_spec {f : ScalarField} {sv : ZeroFinder} {g : Vec3} {st : ℚ}
    {x y z : ℤ} {e : EdgeEntry} (hmk : mkEdgeX f sv g st x y z = some e) :
    e.x = x ∧ e.y = y ∧ e.z = z ∧ e.axis = 0 ∧
    ¬(valAt f g st x y z ≤ 0 ↔ valAt f g st (x + 1) y z ≤ 0) ∧
    e.solid = decide (valAt f g st x y z ≤ 0) ∧
    e.mat = (if valAt f g st x y z ≤ 0 then matAt f g st x y z
      else matAt f g st (x + 1) y z) ∧
    e.offset = (sv.findAlongX (localToGlobal g st x y z).x (localToGlobal g st x y z).y
      (localToGlobal g st x y z).z ((localToGlobal g st x y z).x + st)
      (valAt f g st x y z) (valAt f g st (x + 1) y z) f -
        (localToGlobal g st x y z).x) / st := by
  unfold mkEdgeX at hmk
  dsimp only at hmk
  split at hmk
  · rename_i hcond
    injection hmk with hmk
    subst hmk
    refine ⟨rfl, rfl, rfl, rfl, ?_, rfl, ?_, rfl⟩
    · intro hiff
      exact hcond (by rw [decide_eq_decide]; exact hiff)
    · by_cases hv : valAt f g st x y z ≤ 0 <;> simp [hv]
  · exact absurd hmk (by simp)

/-- Field projections of an entry produced by the Y-edge loop body. -/
theorem mkEdgeY_some_spec {f : ScalarField} {sv : ZeroFinder} {g : Vec3} {st : ℚ}
    {x y z : ℤ} {e : EdgeEntry} (hmk : mkEdgeY f sv g st x y z = some e) :
    e.x = x ∧ e.y = y ∧ e.z = z ∧ e.axis = 1 ∧
    ¬(valAt f g st x y z ≤ 0 ↔ valAt f g st x (y + 1) z ≤ 0) ∧
    e.solid = decide (valAt f g st x y z ≤ 0) ∧
    e.mat = (if valAt f g st x y z ≤ 0 then matAt f g st x y z
      else matAt f g st x (y + 1) z) ∧
    e.offset = (sv.findAlongY (localToGlobal g st x y z).x (localToGlobal g st x y z).y
      (localToGlobal g st x y z).z ((localToGlobal g st x y z).y + st)
      (valAt f g st x y z) (valAt f g st x (y + 1) z) f -
        (localToGlobal g st x y z).y) / st := by
  unfold mkEdgeY at hmk
  dsimp only at hmk
  split at hmk
  · rename_i hcond
    injection hmk with hmk
    subst hmk
    refine ⟨rfl, rfl, rfl, rfl, ?_, rfl, ?_, rfl⟩
    · intro hiff
      exact hcond (by rw [decide_eq_decide]; exact hiff)
    · by_cases hv : valAt f g st x y z ≤ 0 <;> simp [hv]
  · exact absurd hmk (by simp)

/-- Field projections of an entry produced by the Z-edge loop body. -/
theorem mkEdgeZ_some_spec {f : ScalarField} {sv : ZeroFinder} {g : Vec3} {st : ℚ}
    {x y z : ℤ} {e : EdgeEntry} (hmk : mkEdgeZ f sv g st x y z = some e) :
    e.x = x ∧ e.y = y ∧ e.z = z ∧ e.axis = 2 ∧
    ¬(valAt f g st x y z ≤ 0 ↔ valAt f g st x y (z + 1) ≤ 0) ∧
    e.solid = decide (valAt f g st x y z ≤ 0) ∧
    e.mat = (if valAt f g st x y z ≤ 0 then matAt f g st x y z
      else matAt f g st x y (z + 1)) ∧
    e.offset = (sv.findAlongZ (localToGlobal g st x y z).x (localToGlobal g st x y z).y
      (localToGlobal g st x y z).z ((localToGlobal g st x y z).z + st)
      (valAt f g st x y z) (valAt f g st x y (z + 1)) f -
        (localToGlobal g st x y z).z) / st := by
  unfold mkEdgeZ at hmk
  dsimp only at hmk
  split at hmk
  · rename_i hcond
    injection hmk with hmk
    subst hmk
    refine ⟨rfl, rfl, rfl, rfl, ?_, rfl, ?_, rfl⟩
    · intro hiff
      exact hcond (by rw [decide_eq_decide]; exact hiff)
    · by_cases hv : valAt f g st x y z ≤ 0 <;> simp [hv]
  · exact absurd hmk (by simp)

/-- The loop bodies produce an entry exactly on a sign change. -/
theorem mkEdgeX_isSome {f : ScalarField} {sv : ZeroFinder} {g : Vec3} {st : ℚ}
    {x y z : ℤ} (hc : ¬(valAt f g st x y z ≤ 0 ↔ valAt f g st (x + 1) y z ≤ 0)) :
    ∃ e, mkEdgeX f sv g st x y z = some e := by
  unfold mkEdgeX
  dsimp only
  rw [if_pos (by rw [Ne, decide_eq_decide]; exact hc)]
  exact ⟨_, rfl⟩

theorem mkEdgeY_isSome {f : ScalarField} {sv : ZeroFinder} {g : Vec3} {st : ℚ}
    {x y z : ℤ} (hc : ¬(valAt f g st x y z ≤ 0 ↔ valAt f g st x (y + 1) z ≤ 0)) :
    ∃ e, mkEdgeY f sv g st x y z = some e := by
  unfold mkEdgeY
  dsimp only
  rw [if_pos (by rw [Ne, decide_eq_decide]; exact hc)]
  exact ⟨_, rfl⟩

theorem mkEdgeZ_isSome {f : ScalarField} {sv : ZeroFinder} {g : Vec3} {st : ℚ}
    {x y z : ℤ} (hc : ¬(valAt f g st x y z ≤ 0 ↔ valAt f g st x y (z + 1) ≤ 0)) :
    ∃ e, mkEdgeZ f sv g st x y z = some e := by
  unfold mkEdgeZ
  dsimp only
  rw [if_pos (by rw [Ne, decide_eq_decide]; exact hc)]
  exact ⟨_, rfl⟩

/-- Membership in the rebuilt X-edge list, unfolded to loop ranges. -/
theorem mem_edgeScanX {h : ℕ} {f : ScalarField} {sv : ZeroFinder} {g : Vec3} {st : ℚ}
    {e : EdgeEntry} :
    e ∈ edgeScanX h f sv g st ↔
      ∃ x y z : ℤ, -(h : ℤ) ≤ y ∧ y ≤ h ∧ -(h : ℤ) ≤ x ∧ x < h ∧ -(h : ℤ) ≤ z ∧ z ≤ h ∧
        mkEdgeX f sv g st x y z = some e := by
  unfold edgeScanX
  simp only [List.mem_flatMap, List.mem_filterMap, mem_rangeClosed, mem_rangeOpen]
  constructor
  · rintro ⟨y, ⟨hy1, hy2⟩, x, ⟨hx1, hx2⟩, z, ⟨hz1, hz2⟩, hmk⟩
    exact ⟨x, y, z, hy1, hy2, hx1, hx2, hz1, hz2, hmk⟩
  · rintro ⟨x, y, z, hy1, hy2, hx1, hx2, hz1, hz2, hmk⟩
    exact ⟨y, ⟨hy1, hy2⟩, x, ⟨hx1, hx2⟩, z, ⟨hz1, hz2⟩, hmk⟩

/-- Membership in the rebuilt Y-edge list, unfolded to loop ranges. -/
theorem mem_edgeScanY {h : ℕ} {f : ScalarField} {sv : ZeroFinder} {g : Vec3} {st : ℚ}
    {e : EdgeEntry} :
    e ∈ edgeScanY h f sv g st ↔
      ∃ x y z : ℤ, -(h : ℤ) ≤ y ∧ y < h ∧ -(h : ℤ) ≤ x ∧ x ≤ h ∧ -(h : ℤ) ≤ z ∧ z ≤ h ∧
        mkEdgeY f sv g st x y z = some e := by
  unfold edgeScanY
  simp only [List.mem_flatMap, List.mem_filterMap, mem_rangeClosed, mem_rangeOpen]
  constructor
  · rintro ⟨y, ⟨hy1, hy2⟩, x, ⟨hx1, hx2⟩, z, ⟨hz1, hz2⟩, hmk⟩
    exact ⟨x, y, z, hy1, hy2, hx1, hx2, hz1, hz2, hmk⟩
  · rintro ⟨x, y, z, hy1, hy2, hx1, hx2, hz1, hz2, hmk⟩
    exact ⟨y, ⟨hy1, hy2⟩, x, ⟨hx1, hx2⟩, z, ⟨hz1, hz2⟩, hmk⟩

/-- Membership in the rebuilt Z-edge list, unfolded to loop ranges. -/
theorem mem_edgeScanZ {h : ℕ} {f : ScalarField} {sv : ZeroFinder} {g : Vec3} {st : ℚ}
    {e : EdgeEntry} :
    e ∈ edgeScanZ h f sv g st ↔
      ∃ x y z : ℤ, -(h : ℤ) ≤ y ∧ y ≤ h ∧ -(h : ℤ) ≤ x ∧ x ≤ h ∧ -(h : ℤ) ≤ z ∧ z < h ∧
        mkEdgeZ f sv g st x y z = some e := by
  unfold edgeScanZ
  simp only [List.mem_flatMap, List.mem_filterMap, mem_rangeClosed, mem_rangeOpen]
  constructor
  · rintro ⟨y, ⟨hy1, hy2⟩, x, ⟨hx1, hx2⟩, z, ⟨hz1, hz2⟩, hmk⟩
    exact ⟨x, y, z, hy1, hy2, hx1, hx2, hz1, hz2, hmk⟩
  · rintro ⟨x, y, z, hy1, hy2, hx1, hx2, hz1, hz2, hmk⟩
    exact ⟨y, ⟨hy1, hy2⟩, x, ⟨hx1, hx2⟩, z, ⟨hz1, hz2⟩, hmk⟩

theorem isEdgeInGridX_iff {h x y z : ℤ} :
    isEdgeInGridX h (x, y, z) ↔ -h ≤ x ∧ x < h ∧ -h ≤ y ∧ y ≤ h ∧ -h ≤ z ∧ z ≤ h := by
  unfold isEdgeInGridX
  dsimp only
  simp only [gt_iff_lt, not_lt, not_or, ge_iff_le, not_le, abs_le]
  omega

theorem isEdgeInGridY_iff {h x y z : ℤ} :
    isEdgeInGridY h (x, y, z) ↔ -h ≤ x ∧ x ≤ h ∧ -h ≤ y ∧ y < h ∧ -h ≤ z ∧ z ≤ h := by
  unfold isEdgeInGridY
  dsimp only
  simp only [gt_iff_lt, not_lt, not_or, ge_iff_le, not_le, abs_le]
  omega

theorem isEdgeInGridZ_iff {h x y z : ℤ} :
    isEdgeInGridZ h (x, y, z) ↔ -h ≤ x ∧ x ≤ h ∧ -h ≤ y ∧ y ≤ h ∧ -h ≤ z ∧ z < h := by
  unfold isEdgeInGridZ
  dsimp only
  simp only [gt_iff_lt, not_lt, not_or, ge_iff_le, not_le, abs_le]
  omega

/-- C1. For each of the three axes, `fill` records an edge-crossing entry for
a lattice edge exactly when the two endpoint values disagree under the
inside predicate `value ≤ 0` (exact zero counting as inside), and every
recorded crossing stores the `sign1` orientation flag (lower endpoint
inside) and the material of the inside endpoint: the lower endpoint when its
value is `≤ 0`, otherwise the upper endpoint. -/
theorem fill_crossing_spec (h : ℕ) (f : ScalarField) (sv : ZeroFinder) (g : Vec3) (st : ℚ) :
    ((∀ x y z : ℤ,
      ((∃ e ∈ edgeScanX h f sv g st, e.x = x ∧ e.y = y ∧ e.z = z) ↔
        (isEdgeInGridX (h : ℤ) (x, y, z) ∧
          ¬(valAt f g st x y z ≤ 0 ↔ valAt f g st (x + 1) y z ≤ 0)))) ∧
     (∀ e ∈ edgeScanX h f sv g st,
        e.solid = decide (valAt f g st e.x e.y e.z ≤ 0) ∧
        e.mat = if valAt f g st e.x e.y e.z ≤ 0
          then f.material (localToGlobal g st e.x e.y e.z) (valAt f g st e.x e.y e.z)
          else f.material (localToGlobal g st (e.x + 1) e.y e.z)
            (valAt f g st (e.x + 1) e.y e.z))) ∧
    ((∀ x y z : ℤ,
      ((∃ e ∈ edgeScanY h f sv g st, e.x = x ∧ e.y = y ∧ e.z = z) ↔
        (isEdgeInGridY (h : ℤ) (x, y, z) ∧
          ¬(valAt f g st x y z ≤ 0 ↔ valAt f g st x (y + 1) z ≤ 0)))) ∧
     (∀ e ∈ edgeScanY h f sv g st,
        e.solid = decide (valAt f g st e.x e.y e.z ≤ 0) ∧
        e.mat = if valAt f g st e.x e.y e.z ≤ 0
          then f.material (localToGlobal g st e.x e.y e.z) (valAt f g st e.x e.y e.z)
          else f.material (localToGlobal g st e.x (e.y + 1) e.z)
            (valAt f g st e.x (e.y + 1) e.z))) ∧
    ((∀ x y z : ℤ,
      ((∃ e ∈ edgeScanZ h f sv g st, e.x = x ∧ e.y = y ∧ e.z = z) ↔
        (isEdgeInGridZ (h : ℤ) (x, y, z) ∧
          ¬(valAt f g st x y z ≤ 0 ↔ valAt f g st x y (z + 1) ≤ 0)))) ∧
     (∀ e ∈ edgeScanZ h f sv g st,
        e.solid = decide (valAt f g st e.x e.y e.z ≤ 0) ∧
        e.mat = if valAt f g st e.x e.y e.z ≤ 0
          then f.material (localToGlobal g st e.x e.y e.z) (valAt f g st e.x e.y e.z)
          else f.material (localToGlobal g st e.x e.y (e.z + 1))
            (valAt f g st e.x e.y (e.z + 1)))) := by
  have matInside : ∀ x y z : ℤ, valAt f g st x y z ≤ 0 →
      matAt f g st x y z = f.material (localToGlobal g st x y z) (valAt f g st x y z) := by
    intro x y z hv
    unfold matAt
    rw [if_neg (not_lt.mpr hv)]
  refine ⟨⟨?_, ?_⟩, ⟨?_, ?_⟩, ⟨?_, ?_⟩⟩
  · intro x y z
    constructor
    · rintro ⟨e, he, hex, hey, hez⟩
      obtain ⟨x', y', z', hy1, hy2, hx1, hx2, hz1, hz2, hmk⟩ := mem_edgeScanX.mp he
      obtain ⟨e1, e2, e3, _, hcond, _⟩ := mkEdgeX_some_spec hmk
      have hxx : x' = x := by rw [← hex, e1]
      have hyy : y' = y := by rw [← hey, e2]
      have hzz : z' = z := by rw [← hez, e3]
      subst hxx hyy hzz
      exact ⟨isEdgeInGridX_iff.mpr (by omega), hcond⟩
    · rintro ⟨hedge, hcond⟩
      rw [isEdgeInGridX_iff] at hedge
      obtain ⟨e, hmk⟩ := @mkEdgeX_isSome f sv g st x y z hcond
      obtain ⟨e1, e2, e3, _⟩ := mkEdgeX_some_spec hmk
      exact ⟨e, mem_edgeScanX.mpr ⟨x, y, z, by omega, by omega, by omega, by omega,
        by omega, by omega, hmk⟩, e1, e2, e3⟩
  · intro e he
    obtain ⟨x, y, z, _, _, _, _, _, _, hmk⟩ := mem_edgeScanX.mp he
    obtain ⟨e1, e2, e3, _, hcond, hsol, hmat, _⟩ := mkEdgeX_some_spec hmk
    subst e1 e2 e3
    refine ⟨hsol, ?_⟩
    rw [hmat]
    by_cases hv : valAt f g st e.x e.y e.z ≤ 0
    · rw [if_pos hv, if_pos hv, matInside _ _ _ hv]
    · have hv2 : valAt f g st (e.x + 1) e.y e.z ≤ 0 := by tauto
      rw [if_neg hv, if_neg hv, matInside _ _ _ hv2]
  · intro x y z
    constructor
    · rintro ⟨e, he, hex, hey, hez⟩
      obtain ⟨x', y', z', hy1, hy2, hx1, hx2, hz1, hz2, hmk⟩ := mem_edgeScanY.mp he
      obtain ⟨e1, e2, e3, _, hcond, _⟩ := mkEdgeY_some_spec hmk
      have hxx : x' = x := by rw [← hex, e1]
      have hyy : y' = y := by rw [← hey, e2]
      have hzz : z' = z := by rw [← hez, e3]
      subst hxx hyy hzz
      exact ⟨isEdgeInGridY_iff.mpr (by omega), hcond⟩
    · rintro ⟨hedge, hcond⟩
      rw [isEdgeInGridY_iff] at hedge
      obtain ⟨e, hmk⟩ := @mkEdgeY_isSome f sv g st x y z hcond
      obtain ⟨e1, e2, e3, _⟩ := mkEdgeY_some_spec hmk
      exact ⟨e, mem_edgeScanY.mpr ⟨x, y, z, by omega, by omega, by omega, by omega,
        by omega, by omega, hmk⟩, e1, e2, e3⟩
  · intro e he
    obtain ⟨x, y, z, _, _, _, _, _, _, hmk⟩ := mem_edgeScanY.mp he
    obtain ⟨e1, e2, e3, _, hcond, hsol, hmat, _⟩ := mkEdgeY_some_spec hmk
    subst e1 e2 e3
    refine ⟨hsol, ?_⟩
    rw [hmat]
    by_cases hv : valAt f g st e.x e.y e.z ≤ 0
    · rw [if_pos hv, if_pos hv, matInside _ _ _ hv]
    · have hv2 : valAt f g st e.x (e.y + 1) e.z ≤ 0 := by tauto
      rw [if_neg hv, if_neg hv, matInside _ _ _ hv2]
  · intro x y z
    constructor
    · rintro ⟨e, he, hex, hey, hez⟩
      obtain ⟨x', y', z', hy1, hy2, hx1, hx2, hz1, hz2, hmk⟩ := mem_edgeScanZ.mp he
      obtain ⟨e1, e2, e3, _, hcond, _⟩ := mkEdgeZ_some_spec hmk
      have hxx : x' = x := by rw [← hex, e1]
      have hyy : y' = y := by rw [← hey, e2]
      have hzz : z' = z := by rw [← hez, e3]
      subst hxx hyy hzz
      exact ⟨isEdgeInGridZ_iff.mpr (by omega), hcond⟩
    · rintro ⟨hedge, hcond⟩
      rw [isEdgeInGridZ_iff] at hedge
      obtain ⟨e, hmk⟩ := @mkEdgeZ_isSome f sv g st x y z hcond
      obtain ⟨e1, e2, e3, _⟩ := mkEdgeZ_some_spec hmk
      exact ⟨e, mem_edgeScanZ.mpr ⟨x, y, z, by omega, by omega, by omega, by omega,
        by omega, by omega, hmk⟩, e1, e2, e3⟩
  · intro e he
    obtain ⟨x, y, z, _, _, _, _, _, _, hmk⟩ := mem_edgeScanZ.mp he
    obtain ⟨e1, e2, e3, _, hcond, hsol, hmat, _⟩ := mkEdgeZ_some_spec hmk
    subst e1 e2 e3
    refine ⟨hsol, ?_⟩
    rw [hmat]
    by_cases hv : valAt f g st e.x e.y e.z ≤ 0
    · rw [if_pos hv, if_pos hv, matInside _ _ _ hv]
    · have hv2 : valAt f g st e.x e.y (e.z + 1) ≤ 0 := by tauto
      rw [if_neg hv, if_neg hv, matInside _ _ _ hv2]

/-- Concrete test field: the signed value is the world-space `x` coordinate
(a planar isosurface through the origin), with constant gradient and a
constant non-empty material on the inside. -/
def sampleFieldX : ScalarField :=
  ⟨fun v => v.x, fun _ => ⟨1, 0, 0⟩, fun _ _ => Material.Stone⟩

/-- A root finder that always answers the midpoint of the given bounds. -/
def midSolver : ZeroFinder :=
  ⟨fun x0 _ _ x1 _ _ _ => (x0 + x1) / 2,
   fun _ y0 _ y1 _ _ _ => (y0 + y1) / 2,
   fun _ _ z0 z1 _ _ _ => (z0 + z1) / 2⟩

/-- A root finder that always answers the upper of the given bounds (still a
coordinate between the bounds). -/
def upperSolver : ZeroFinder :=
  ⟨fun _ _ _ b _ _ _ => b, fun _ _ _ b _ _ _ => b, fun _ _ _ b _ _ _ => b⟩

/-- Witness for C1: on a size-2 grid sampling `sampleFieldX`, the X edge at
`(0,0,0)` (inside endpoint value `0`, outside endpoint value `1`) is
recorded, while the X edge at `(-1,0,0)` (both endpoints inside) is not. -/
theorem fill_crossing_spec_witness :
    (∃ e ∈ edgeScanX 1 sampleFieldX midSolver ⟨0, 0, 0⟩ 1, e.x = 0 ∧ e.y = 0 ∧ e.z = 0) ∧
    ¬(∃ e ∈ edgeScanX 1 sampleFieldX midSolver ⟨0, 0, 0⟩ 1,
        e.x = -1 ∧ e.y = 0 ∧ e.z = 0) := by
  constructor
  · refine ((fill_crossing_spec 1 sampleFieldX midSolver ⟨0, 0, 0⟩ 1).1.1 0 0 0).mpr ⟨?_, ?_⟩
    · rw [isEdgeInGridX_iff]
      norm_num
    · norm_num [valAt, localToGlobal, sampleFieldX]
  · intro hex
    have hc := ((fill_crossing_spec 1 sampleFieldX midSolver ⟨0, 0, 0⟩ 1).1.1 (-1) 0 0).mp hex
    exact hc.2 (by norm_num [valAt, localToGlobal, sampleFieldX])

/-- C5. After the vertex pass of `fill`, a vertex whose sampled value is
positive stores `Empty`; a vertex whose sampled value is `≤ 0` stores the
material reported by the field there; and the stored materials never depend
on what `field.material` returns at points with positive sampled value. -/
theorem fill_vertex_material_spec (f : ScalarField) (g : Vec3) (st : ℚ) (x y z : ℤ) :
    (0 < valAt f g st x y z → matAt f g st x y z = Material.Empty) ∧
    (valAt f g st x y z ≤ 0 →
      matAt f g st x y z = f.material (localToGlobal g st x y z) (valAt f g st x y z)) ∧
    (∀ m m' : Vec3 → ℚ → Material,
      (∀ p v, v ≤ 0 → m p v = m' p v) →
      matAt ⟨f.f, f.grad, m⟩ g st x y z = matAt ⟨f.f, f.grad, m'⟩ g st x y z) := by
  refine ⟨?_, ?_, ?_⟩
  · intro hv
    unfold matAt
    rw [if_pos hv]
  · intro hv
    unfold matAt
    rw [if_neg (not_lt.mpr hv)]
  · intro m m' hmm
    unfold matAt valAt
    dsimp only
    split_ifs with hv
    · rfl
    · exact hmm _ _ (not_lt.mp hv)

/-- Witness for C5 at the sample planar field: the vertex `(1,0,0)` has
positive value and stores `Empty`; the vertex `(0,0,0)` has value `0` and
stores the field's material. -/
theorem fill_vertex_material_spec_witness :
    ((0 : ℚ) < valAt sampleFieldX ⟨0, 0, 0⟩ 1 1 0 0 ∧
      matAt sampleFieldX ⟨0, 0, 0⟩ 1 1 0 0 = Material.Empty) ∧
    (valAt sampleFieldX ⟨0, 0, 0⟩ 1 0 0 0 ≤ 0 ∧
      matAt sampleFieldX ⟨0, 0, 0⟩ 1 0 0 0 = Material.Stone) := by
  have h1 := (fill_vertex_material_spec sampleFieldX ⟨0, 0, 0⟩ 1 1 0 0).1
  have h2 := (fill_vertex_material_spec sampleFieldX ⟨0, 0, 0⟩ 1 0 0 0).2.1
  refine ⟨⟨?_, h1 ?_⟩, ⟨?_, ?_⟩⟩
  · norm_num [valAt, localToGlobal, sampleFieldX]
  · norm_num [valAt, localToGlobal, sampleFieldX]
  · norm_num [valAt, localToGlobal, sampleFieldX]
  · rw [h2 (by norm_num [valAt, localToGlobal, sampleFieldX])]
    rfl

/-- C6 (amended). If the root finder always returns a coordinate in the
half-open interval from the lower bound (inclusive) to the upper bound
(exclusive), every recorded crossing offset lies in `[0, 1)`. (As originally
stated — root finder merely between the bounds, inclusively — the offset can
reach `1`; see the counterexample.) -/
theorem offset_in_unit_interval (h : ℕ) (f : ScalarField) (sv : ZeroFinder)
    (g : Vec3) (st : ℚ) (hst : 0 < st)
    (hX : ∀ x0 y z v1 v2 fl, x0 ≤ sv.findAlongX x0 y z (x0 + st) v1 v2 fl ∧
      sv.findAlongX x0 y z (x0 + st) v1 v2 fl < x0 + st)
    (hY : ∀ x y0 z v1 v2 fl, y0 ≤ sv.findAlongY x y0 z (y0 + st) v1 v2 fl ∧
      sv.findAlongY x y0 z (y0 + st) v1 v2 fl < y0 + st)
    (hZ : ∀ x y z0 v1 v2 fl, z0 ≤ sv.findAlongZ x y z0 (z0 + st) v1 v2 fl ∧
      sv.findAlongZ x y z0 (z0 + st) v1 v2 fl < z0 + st) :
    ∀ e ∈ edgeScanX h f sv g st ++ edgeScanY h f sv g st ++ edgeScanZ h f sv g st,
      0 ≤ e.offset ∧ e.offset < 1 := by
  intro e he
  rcases List.mem_append.mp he with he' | heZ
  · rcases List.mem_append.mp he' with heX | heY
    · obtain ⟨x, y, z, _, _, _, _, _, _, hmk⟩ := mem_edgeScanX.mp heX
      obtain ⟨_, _, _, _, _, _, _, hoff⟩ := mkEdgeX_some_spec hmk
      obtain ⟨hlo, hhi⟩ := hX (localToGlobal g st x y z).x (localToGlobal g st x y z).y
        (localToGlobal g st x y z).z (valAt f g st x y z) (valAt f g st (x + 1) y z) f
      rw [hoff]
      constructor
      · exact div_nonneg (by linarith) hst.le
      · rw [div_lt_one hst]
        linarith
    · obtain ⟨x, y, z, _, _, _, _, _, _, hmk⟩ := mem_edgeScanY.mp heY
      obtain ⟨_, _, _, _, _, _, _, hoff⟩ := mkEdgeY_some_spec hmk
      obtain ⟨hlo, hhi⟩ := hY (localToGlobal g st x y z).x (localToGlobal g st x y z).y
        (localToGlobal g st x y z).z (valAt f g st x y z) (valAt f g st x (y + 1) z) f
      rw [hoff]
      constructor
      · exact div_nonneg (by linarith) hst.le
      · rw [div_lt_one hst]
        linarith
  · obtain ⟨x, y, z, _, _, _, _, _, _, hmk⟩ := mem_edgeScanZ.mp heZ
    obtain ⟨_, _, _, _, _, _, _, hoff⟩ := mkEdgeZ_some_spec hmk
    obtain ⟨hlo, hhi⟩ := hZ (localToGlobal g st x y z).x (localToGlobal g st x y z).y
      (localToGlobal g st x y z).z (valAt f g st x y z) (valAt f g st x y (z + 1)) f
    rw [hoff]
    constructor
    · exact div_nonneg (by linarith) hst.le
    · rw [div_lt_one hst]
      linarith

/-- The entry the X-edge loop records for the edge at `(0,0,0)` of the
sample planar field when the root finder answers the upper bound. -/
def upperEntry : EdgeEntry := ⟨0, 0, 0, ⟨1, 0, 0⟩, 1, 0, true, Material.Stone⟩

/-- The entry the X-edge loop records for the edge at `(0,0,0)` of the
sample planar field when the root finder answers the midpoint. -/
def midEntry : EdgeEntry := ⟨0, 0, 0, ⟨1, 0, 0⟩, 1 / 2, 0, true, Material.Stone⟩

/-- Counterexample to C6 as stated: with the inclusive reading of "returns a
coordinate between the two bounds", a root finder answering the upper bound
on an edge whose upper endpoint value is exactly `0` yields a recorded
offset of `1`, outside `[0, 1)`. -/
theorem offset_in_unit_interval_counterexample :
    ¬ (∀ (h : ℕ) (f : ScalarField) (sv : ZeroFinder) (g : Vec3) (st : ℚ),
        0 < st →
        (∀ x0 y z v1 v2 fl, x0 ≤ sv.findAlongX x0 y z (x0 + st) v1 v2 fl ∧
          sv.findAlongX x0 y z (x0 + st) v1 v2 fl ≤ x0 + st) →
        (∀ x y0 z v1 v2 fl, y0 ≤ sv.findAlongY x y0 z (y0 + st) v1 v2 fl ∧
          sv.findAlongY x y0 z (y0 + st) v1 v2 fl ≤ y0 + st) →
        (∀ x y z0 v1 v2 fl, z0 ≤ sv.findAlongZ x y z0 (z0 + st) v1 v2 fl ∧
          sv.findAlongZ x y z0 (z0 + st) v1 v2 fl ≤ z0 + st) →
        ∀ e ∈ edgeScanX h f sv g st ++ edgeScanY h f sv g st ++ edgeScanZ h f sv g st,
          0 ≤ e.offset ∧ e.offset < 1) := by
  intro hcl
  have hbound : ∀ b : ℚ, b ≤ b + 1 := fun b => by linarith
  have hres := hcl 1 sampleFieldX upperSolver ⟨0, 0, 0⟩ 1 one_pos
    (fun x0 y z v1 v2 fl => ⟨hbound x0, le_refl _⟩)
    (fun x y0 z v1 v2 fl => ⟨hbound y0, le_refl _⟩)
    (fun x y z0 v1 v2 fl => ⟨hbound z0, le_refl _⟩)
    upperEntry
    (List.mem_append.mpr (Or.inl (List.mem_append.mpr (Or.inl
      (mem_edgeScanX.mpr ⟨0, 0, 0, by norm_num, by norm_num, by norm_num, by norm_num,
        by norm_num, by norm_num,
        by norm_num [mkEdgeX, valAt, localToGlobal, sampleFieldX, upperSolver, matAt,
          upperEntry]⟩)))))
  have : upperEntry.offset < 1 := hres.2
  rw [show upperEntry.offset = 1 from rfl] at this
  exact absurd this (by norm_num)

/-- Witness for the amended C6: the midpoint root finder satisfies the
strict-upper-bound hypothesis and the recorded offset `1/2` lies in `[0,1)`. -/
theorem offset_in_unit_interval_witness :
    0 ≤ midEntry.offset ∧ midEntry.offset < 1 := by
  refine offset_in_unit_interval 1 sampleFieldX midSolver ⟨0, 0, 0⟩ 1 one_pos
    ?_ ?_ ?_ midEntry
    (List.mem_append.mpr (Or.inl (List.mem_append.mpr (Or.inl
      (mem_edgeScanX.mpr ⟨0, 0, 0, by norm_num, by norm_num, by norm_num, by norm_num,
        by norm_num, by norm_num,
        by norm_num [mkEdgeX, valAt, localToGlobal, sampleFieldX, midSolver, matAt,
          midEntry]⟩)))))
  · intro x0 y z v1 v2 fl
    unfold midSolver
    dsimp only
    constructor <;> linarith
  · intro x y0 z v1 v2 fl
    unfold midSolver
    dsimp only
    constructor <;> linarith
  · intro x y z0 v1 v2 fl
    unfold midSolver
    dsimp only
    constructor <;> linarith

/-! ## `UniformGrid` construction (`grid.cpp`, constructor) -/

/-- The three construction-time size errors (`std::invalid_argument` for the
minimum-bound and power-of-two checks, `std::length_error` for the maximum
bound; three distinct exception objects in the source). -/
inductive GridError where
  | sizeTooSmall : GridError
  | sizeNotPowerOfTwo : GridError
  | sizeTooLarge : GridError
deriving DecidableEq, Repr

/-- The successfully constructed grid state: size, `m_halfSize = size / 2`,
world position, step, and the number of allocated `m_mat` entries. -/
structure UniformGrid where
  m_size : ℕ
  m_halfSize : ℤ
  m_globalPos : Vec3
  m_gridStep : ℚ
  matCount : ℕ
deriving DecidableEq, Repr

/-- `UniformGrid::UniformGrid`: rejects `size < 2`, then a `size` with
`size & (size - 1) != 0`, then `size > 1024`; otherwise allocates
`(size+1)^3` materials. -/
def makeUniformGrid (size : ℕ) (globalPos : Vec3) (gridStep : ℚ) :
    Except GridError UniformGrid :=
  if size < 2 then Except.error GridError.sizeTooSmall
  else if size &&& (size - 1) ≠ 0 then Except.error GridError.sizeNotPowerOfTwo
  else if size > 1024 then Except.error GridError.sizeTooLarge
  else Except.ok ⟨size, ((size / 2 : ℕ) : ℤ), globalPos, gridStep,
    (size + 1) * (size + 1) * (size + 1)⟩

theorem land_two_mul (m : ℕ) : (2 * m) &&& (2 * m - 1) = 2 * (m &&& (m - 1)) := by
  apply Nat.eq_of_testBit_eq
  intro i
  cases i with
  | zero =>
    simp [Nat.testBit_and, Nat.testBit_zero]
  | succ j =>
    rw [Nat.testBit_and, Nat.testBit_succ, Nat.testBit_succ, Nat.testBit_succ,
      ← Nat.testBit_and]
    have e1 : 2 * m / 2 = m := by omega
    have e2 : (2 * m - 1) / 2 = m - 1 := by omega
    have e3 : 2 * (m &&& (m - 1)) / 2 = m &&& (m - 1) := by omega
    rw [e1, e2, e3]

theorem land_odd (m : ℕ) : (2 * m + 1) &&& (2 * m) = 2 * m := by
  apply Nat.eq_of_testBit_eq
  intro i
  cases i with
  | zero =>
    simp [Nat.testBit_and, Nat.testBit_zero]
  | succ j =>
    rw [Nat.testBit_and, Nat.testBit_succ, Nat.testBit_succ]
    have e1 : (2 * m + 1) / 2 = m := by omega
    have e2 : 2 * m / 2 = m := by omega
    rw [e1, e2, Bool.and_self]

/-- The classic `size & (size - 1) == 0` test detects exactly the powers of
two among the positive naturals. -/
theorem land_pred_eq_zero_iff : ∀ n : ℕ, 0 < n → (n &&& (n - 1) = 0 ↔ ∃ k, n = 2 ^ k) := by
  intro n
  induction n using Nat.strong_induction_on with
  | _ n ih =>
    intro hn
    rcases Nat.even_or_odd n with ⟨m, hm⟩ | ⟨m, hm⟩
    · have hm' : 0 < m := by omega
      have h2 : n = 2 * m := by omega
      subst h2
      rw [land_two_mul]
      constructor
      · intro hz
        obtain ⟨k, hk⟩ := (ih m (by omega) hm').mp (by omega)
        exact ⟨k + 1, by rw [hk]; ring⟩
      · rintro ⟨k, hk⟩
        rcases k with _ | k
        · omega
        · have hk' : m = 2 ^ k := by
            have : 2 * m = 2 * 2 ^ k := by rw [hk]; ring
            omega
          have := (ih m (by omega) hm').mpr ⟨k, hk'⟩
          omega
    · have h2 : n = 2 * m + 1 := by omega
      subst h2
      rw [show 2 * m + 1 - 1 = 2 * m by omega, land_odd]
      constructor
      · intro hz
        exact ⟨0, by omega⟩
      · rintro ⟨k, hk⟩
        rcases k with _ | k
        · simp at hk
          omega
        · exfalso
          have : 2 ^ (k + 1) = 2 * 2 ^ k := by ring
          omega

theorem land_two_pow_pred (k : ℕ) : 2 ^ k &&& (2 ^ k - 1) = 0 := by
  apply Nat.eq_of_testBit_eq
  intro i
  simp [Nat.testBit_and, Nat.testBit_two_pow, Nat.testBit_two_pow_sub_one]

/-- C7. Construction rejects `size < 2`, a non-power-of-two `size`, and
`size > 1024` (the three failures being distinct reportable conditions), and
for every power of two `2 ≤ size ≤ 1024` it succeeds with `halfSize = size/2`
and a material array of `(size+1)^3` entries. -/
theorem makeUniformGrid_spec (g : Vec3) (st : ℚ) :
    (∀ size : ℕ, size < 2 →
      makeUniformGrid size g st = Except.error GridError.sizeTooSmall) ∧
    (∀ size : ℕ, 2 ≤ size → (¬ ∃ k, size = 2 ^ k) →
      makeUniformGrid size g st = Except.error GridError.sizeNotPowerOfTwo) ∧
    (∀ size : ℕ, (∃ k, size = 2 ^ k) → 1024 < size →
      makeUniformGrid size g st = Except.error GridError.sizeTooLarge) ∧
    (GridError.sizeTooSmall ≠ GridError.sizeNotPowerOfTwo ∧
      GridError.sizeTooSmall ≠ GridError.sizeTooLarge ∧
      GridError.sizeNotPowerOfTwo ≠ GridError.sizeTooLarge) ∧
    (∀ size : ℕ, (∃ k, size = 2 ^ k) → 2 ≤ size → size ≤ 1024 →
      makeUniformGrid size g st = Except.ok
        ⟨size, ((size / 2 : ℕ) : ℤ), g, st, (size + 1) * (size + 1) * (size + 1)⟩) := by
  refine ⟨?_, ?_, ?_, ⟨by decide, by decide, by decide⟩, ?_⟩
  · intro size hlt
    unfold makeUniformGrid
    rw [if_pos hlt]
  · intro size h2 hnp
    unfold makeUniformGrid
    rw [if_neg (by omega), if_pos]
    intro hz
    exact hnp ((land_pred_eq_zero_iff size (by omega)).mp hz)
  · rintro size ⟨k, rfl⟩ hlt
    unfold makeUniformGrid
    rw [if_neg (by omega), if_neg (by simp [land_two_pow_pred]), if_pos hlt]
  · rintro size ⟨k, rfl⟩ h2 hle
    unfold makeUniformGrid
    rw [if_neg (by omega), if_neg (by simp [land_two_pow_pred]), if_neg (by omega)]

/-- Witness for C7: size `4` succeeds with half-size `2` and `125` material
entries; size `3` is rejected as not a power of two; size `2048` is rejected
as too large; size `1` is rejected as too small. -/
theorem makeUniformGrid_spec_witness :
    makeUniformGrid 4 ⟨0, 0, 0⟩ 1 = Except.ok ⟨4, 2, ⟨0, 0, 0⟩, 1, 125⟩ ∧
    makeUniformGrid 3 ⟨0, 0, 0⟩ 1 = Except.error GridError.sizeNotPowerOfTwo ∧
    makeUniformGrid 2048 ⟨0, 0, 0⟩ 1 = Except.error GridError.sizeTooLarge ∧
    makeUniformGrid 1 ⟨0, 0, 0⟩ 1 = Except.error GridError.sizeTooSmall := by
  have hspec := makeUniformGrid_spec (⟨0, 0, 0⟩ : Vec3) (1 : ℚ)
  refine ⟨?_, ?_, ?_, ?_⟩
  · exact (hspec.2.2.2.2 4 ⟨2, by norm_num⟩ (by norm_num) (by norm_num)).trans (by norm_num)
  · refine hspec.2.1 3 (by norm_num) ?_
    rintro ⟨k, hk⟩
    rcases k with _ | _ | k
    · simp at hk
    · simp at hk
    · have h1 : 1 ≤ 2 ^ k := Nat.one_le_two_pow
      have h4 : 2 ^ (k + 2) = 4 * 2 ^ k := by ring
      omega
  · exact hspec.2.2.1 2048 ⟨11, by norm_num⟩ (by norm_num)
  · exact hspec.1 1 (by norm_num)

/-! ## Cell and vertex adjacency (`grid.cpp`) -/

theorem isVertexInGrid_iff {h x y z : ℤ} :
    isVertexInGrid h x y z ↔ -h ≤ x ∧ x ≤ h ∧ -h ≤ y ∧ y ≤ h ∧ -h ≤ z ∧ z ≤ h := by
  unfold isVertexInGrid
  simp only [abs_le]
  omega

theorem isCellInGrid_iff {h x y z : ℤ} :
    isCellInGrid h (x, y, z) ↔ -h ≤ x ∧ x < h ∧ -h ≤ y ∧ y < h ∧ -h ≤ z ∧ z < h := by
  unfold isCellInGrid
  dsimp only
  simp only [not_or, not_lt, ge_iff_le, not_le]
  omega

/-- `UniformGrid::adjacentVerticesForCell`: the cell's 8 corner indices in
the order of the source (`dz`, `dx`, `dx+dz`, `dy`, `dy+dz`, `dx+dy`,
`dx+dy+dz` offsets from the cell's own index). -/
def adjacentVerticesForCell (s : ℕ) (cellIdx : ℕ) : List ℕ :=
  [cellIdx,
   cellIdx + 1,
   cellIdx + (s + 1),
   cellIdx + (s + 1) + 1,
   cellIdx + (s + 1) * (s + 1),
   cellIdx + (s + 1) * (s + 1) + 1,
   cellIdx + (s + 1) + (s + 1) * (s + 1),
   cellIdx + (s + 1) + (s + 1) * (s + 1) + 1]

/-- `UniformGrid::materialsOfCell`: reads `m_mat` at the same 8 offsets
(the array access is modelled by `List.get?`). -/
def materialsOfCell (s : ℕ) (mats : List Material) (cellIdx : ℕ) : List (Option Material) :=
  [mats.get? cellIdx,
   mats.get? (cellIdx + 1),
   mats.get? (cellIdx + (s + 1)),
   mats.get? (cellIdx + (s + 1) + 1),
   mats.get? (cellIdx + (s + 1) * (s + 1)),
   mats.get? (cellIdx + (s + 1) * (s + 1) + 1),
   mats.get? (cellIdx + (s + 1) + (s + 1) * (s + 1)),
   mats.get? (cellIdx + (s + 1) + (s + 1) * (s + 1) + 1)]

/-- C10. For an in-grid cell, `adjacentVerticesForCell` at the cell's index
returns exactly the indices of the cell's 8 corner vertices, pairwise
distinct and all below `(s+1)^3`, so `materialsOfCell` reads only in-bounds
entries of the material array. -/
theorem adjacentVerticesForCell_spec (s : ℕ) (h x y z : ℤ) (hs : (s : ℤ) = 2 * h)
    (hc : isCellInGrid h (x, y, z)) :
    adjacentVerticesForCell s (pointToIndex s h x y z) =
      [pointToIndex s h x y z,
       pointToIndex s h x y (z + 1),
       pointToIndex s h (x + 1) y z,
       pointToIndex s h (x + 1) y (z + 1),
       pointToIndex s h x (y + 1) z,
       pointToIndex s h x (y + 1) (z + 1),
       pointToIndex s h (x + 1) (y + 1) z,
       pointToIndex s h (x + 1) (y + 1) (z + 1)] ∧
    (adjacentVerticesForCell s (pointToIndex s h x y z)).Pairwise (· ≠ ·) ∧
    (∀ v ∈ adjacentVerticesForCell s (pointToIndex s h x y z),
      v < (s + 1) * (s + 1) * (s + 1)) ∧
    (∀ mats : List Material, mats.length = (s + 1) * (s + 1) * (s + 1) →
      ∀ o ∈ materialsOfCell s mats (pointToIndex s h x y z), o.isSome) := by
  rw [isCellInGrid_iff] at hc
  obtain ⟨hx1, hx2, hy1, hy2, hz1, hz2⟩ := hc
  have hh : 1 ≤ h := by omega
  have hs2 : 2 ≤ s := by omega
  have shift : ∀ a b c : ℤ, 0 ≤ a → 0 ≤ b → 0 ≤ c → ∀ off : ℕ,
      (off : ℤ) = b * ((s : ℤ) + 1) * ((s : ℤ) + 1) + a * ((s : ℤ) + 1) + c →
      pointToIndex s h (x + a) (y + b) (z + c) = pointToIndex s h x y z + off := by
    intro a b c ha hb hcc off hoff
    have k : (pointToIndex s h (x + a) (y + b) (z + c) : ℤ) =
        (pointToIndex s h x y z : ℤ) + off := by
      rw [pointToIndex_eq_int s h (x + a) (y + b) (z + c) (by omega) (by omega) (by omega),
        pointToIndex_eq_int s h x y z (by omega) (by omega) (by omega), hoff]
      ring
    omega
  have e001 : pointToIndex s h x y (z + 1) = pointToIndex s h x y z + 1 := by
    have hsh := shift 0 0 1 (by omega) (by omega) (by omega) 1 (by push_cast; ring)
    simp only [add_zero] at hsh
    omega
  have e100 : pointToIndex s h (x + 1) y z = pointToIndex s h x y z + (s + 1) := by
    have hsh := shift 1 0 0 (by omega) (by omega) (by omega) (s + 1) (by push_cast; ring)
    simp only [add_zero] at hsh
    omega
  have e101 : pointToIndex s h (x + 1) y (z + 1) =
      pointToIndex s h x y z + (s + 1) + 1 := by
    have hsh := shift 1 0 1 (by omega) (by omega) (by omega) (s + 2) (by push_cast; ring)
    simp only [add_zero] at hsh
    omega
  have e010 : pointToIndex s h x (y + 1) z =
      pointToIndex s h x y z + (s + 1) * (s + 1) := by
    have hsh := shift 0 1 0 (by omega) (by omega) (by omega) ((s + 1) * (s + 1))
      (by push_cast; ring)
    simp only [add_zero] at hsh
    omega
  have e011 : pointToIndex s h x (y + 1) (z + 1) =
      pointToIndex s h x y z + (s + 1) * (s + 1) + 1 := by
    have hsh := shift 0 1 1 (by omega) (by omega) (by omega) ((s + 1) * (s + 1) + 1)
      (by push_cast; ring)
    simp only [add_zero] at hsh
    omega
  have e110 : pointToIndex s h (x + 1) (y + 1) z =
      pointToIndex s h x y z + (s + 1) + (s + 1) * (s + 1) := by
    have hsh := shift 1 1 0 (by omega) (by omega) (by omega) ((s + 1) * (s + 1) + (s + 1))
      (by push_cast; ring)
    simp only [add_zero] at hsh
    omega
  have e111 : pointToIndex s h (x + 1) (y + 1) (z + 1) =
      pointToIndex s h x y z + (s + 1) + (s + 1) * (s + 1) + 1 := by
    have hsh := shift 1 1 1 (by omega) (by omega) (by omega) ((s + 1) * (s + 1) + (s + 1) + 1)
      (by push_cast; ring)
    simp only [add_zero] at hsh
    omega
  have E : adjacentVerticesForCell s (pointToIndex s h x y z) =
      [pointToIndex s h x y z,
       pointToIndex s h x y (z + 1),
       pointToIndex s h (x + 1) y z,
       pointToIndex s h (x + 1) y (z + 1),
       pointToIndex s h x (y + 1) z,
       pointToIndex s h x (y + 1) (z + 1),
       pointToIndex s h (x + 1) (y + 1) z,
       pointToIndex s h (x + 1) (y + 1) (z + 1)] := by
    unfold adjacentVerticesForCell
    rw [e001, e100, e101, e010, e011, e110, e111]
  have hmax : pointToIndex s h (x + 1) (y + 1) (z + 1) < (s + 1) * (s + 1) * (s + 1) :=
    pointToIndex_lt s h (x + 1) (y + 1) (z + 1) hs (isVertexInGrid_iff.mpr (by omega))
  rw [e111] at hmax
  have hsq3 : 3 * (s + 1) ≤ (s + 1) * (s + 1) := by nlinarith
  refine ⟨E, ?_, ?_, ?_⟩
  · unfold adjacentVerticesForCell
    simp only [List.pairwise_cons, List.mem_cons, List.not_mem_nil, or_false,
      List.Pairwise.nil, and_true, forall_eq_or_imp, forall_eq, false_implies,
      implies_true]
    omega
  · intro v hv
    unfold adjacentVerticesForCell at hv
    simp only [List.mem_cons, List.not_mem_nil, or_false] at hv
    rcases hv with rfl | rfl | rfl | rfl | rfl | rfl | rfl | rfl <;> omega
  · intro mats hlen o ho
    unfold materialsOfCell at ho
    simp only [List.mem_cons, List.not_mem_nil, or_false] at ho
    rcases ho with rfl | rfl | rfl | rfl | rfl | rfl | rfl | rfl <;>
      (rw [List.get?_eq_get (by omega)]; rfl)

/-- Witness for C10 on a size-2 grid at the cell `(0,0,0)` (index 13). -/
theorem adjacentVerticesForCell_spec_witness :
    adjacentVerticesForCell 2 (pointToIndex 2 1 0 0 0) =
      [13, 14, 16, 17, 22, 23, 25, 26] ∧
    (∀ v ∈ adjacentVerticesForCell 2 (pointToIndex 2 1 0 0 0), v < 27) := by
  have hspec := adjacentVerticesForCell_spec 2 1 0 0 0 (by norm_num) (by decide)
  constructor
  · rw [hspec.1]
    rfl
  · intro v hv
    exact hspec.2.2.1 v hv

/-- C9. For every in-grid vertex, `pointToIndex` stays strictly below
`(size+1)^3`, so `UniformGrid::at` (whose assertion is exactly
`isVertexInGrid`) reads inside the bounds of the material array. -/
theorem at_within_bounds (s : ℕ) (h x y z : ℤ) (hs : (s : ℤ) = 2 * h)
    (hv : isVertexInGrid h x y z) :
    pointToIndex s h x y z < (s + 1) * (s + 1) * (s + 1) ∧
    ∀ mats : List Material, mats.length = (s + 1) * (s + 1) * (s + 1) →
      (mats.get? (pointToIndex s h x y z)).isSome := by
  have hlt := pointToIndex_lt s h x y z hs hv
  refine ⟨hlt, ?_⟩
  intro mats hlen
  rw [List.get?_eq_get (by omega)]
  rfl

/-- Witness for C9 on a size-2 grid at the corner vertex `(1,1,1)`. -/
theorem at_within_bounds_witness :
    pointToIndex 2 1 1 1 1 < 27 ∧
    ((List.replicate 27 Material.Empty).get? (pointToIndex 2 1 1 1 1)).isSome := by
  have hb := at_within_bounds 2 1 1 1 1 (by norm_num) (by decide)
  exact ⟨hb.1, hb.2 (List.replicate 27 Material.Empty) (by simp)⟩

/-! ## Edge-to-cell adjacency (`grid.cpp`, `adjacentCellsForEdge<D>`) -/

/-- Modelled from the spec: the sentinel "invalid" index used for neighbours
falling outside the grid (`kBadIndex`, declared in the grid header, which is
absent from `src/`); taken as the largest `uint32_t` value, which no in-grid
index can attain for constructor-accepted sizes. -/
def kBadIndex : ℕ := 2 ^ 32 - 1

/-- `uint32_t` subtraction: wraps modulo `2^32`. -/
def sub32 (a b : ℕ) : ℕ := (a + 2 ^ 32 - b % 2 ^ 32) % 2 ^ 32

theorem sub32_exact {a b : ℕ} (hb : b ≤ a) (ha : a < 2 ^ 32) : sub32 a b = a - b := by
  unfold sub32
  have hbm : b % 2 ^ 32 = b := Nat.mod_eq_of_lt (by omega)
  rw [hbm]
  omega

/-- `UniformGrid::adjacentCellsForEdge<0>`, entries in source order
`[cells[0], cells[1], cells[2], cells[3]]` with `dy = (s+1)^2`, `dz = 1`.
The source's four sequential `kBadIndex` overwrites collapse, per entry, to
nested conditionals (the guards only ever assign `kBadIndex`, so the final
value is `kBadIndex` iff some applicable guard held). -/
def adjacentCellsForEdgeX (s : ℕ) (h : ℤ) (p : ℤ × ℤ × ℤ) : List ℕ :=
  [if p.2.2 = -h then kBadIndex else if p.2.1 = -h then kBadIndex
     else sub32 (sub32 (pointToIndex s h p.1 p.2.1 p.2.2) ((s + 1) * (s + 1))) 1,
   if p.2.2 = -h then kBadIndex else if p.2.1 = h then kBadIndex
     else sub32 (pointToIndex s h p.1 p.2.1 p.2.2) 1,
   if p.2.2 = h then kBadIndex else if p.2.1 = h then kBadIndex
     else pointToIndex s h p.1 p.2.1 p.2.2,
   if p.2.2 = h then kBadIndex else if p.2.1 = -h then kBadIndex
     else sub32 (pointToIndex s h p.1 p.2.1 p.2.2) ((s + 1) * (s + 1))]

/-- `UniformGrid::adjacentCellsForEdge<1>` (`dx = s+1`, `dz = 1`). -/
def adjacentCellsForEdgeY (s : ℕ) (h : ℤ) (p : ℤ × ℤ × ℤ) : List ℕ :=
  [if p.2.2 = -h then kBadIndex else if p.1 = -h then kBadIndex
     else sub32 (sub32 (pointToIndex s h p.1 p.2.1 p.2.2) (s + 1)) 1,
   if p.2.2 = h then kBadIndex else if p.1 = -h then kBadIndex
     else sub32 (pointToIndex s h p.1 p.2.1 p.2.2) (s + 1),
   if p.2.2 = h then kBadIndex else if p.1 = h then kBadIndex
     else pointToIndex s h p.1 p.2.1 p.2.2,
   if p.2.2 = -h then kBadIndex else if p.1 = h then kBadIndex
     else sub32 (pointToIndex s h p.1 p.2.1 p.2.2) 1]

/-- `UniformGrid::adjacentCellsForEdge<2>` (`dx = s+1`, `dy = (s+1)^2`). -/
def adjacentCellsForEdgeZ (s : ℕ) (h : ℤ) (p : ℤ × ℤ × ℤ) : List ℕ :=
  [if p.2.1 = -h then kBadIndex else if p.1 = -h then kBadIndex
     else sub32 (sub32 (pointToIndex s h p.1 p.2.1 p.2.2) (s + 1)) ((s + 1) * (s + 1)),
   if p.2.1 = -h then kBadIndex else if p.1 = h then kBadIndex
     else sub32 (pointToIndex s h p.1 p.2.1 p.2.2) ((s + 1) * (s + 1)),
   if p.2.1 = h then kBadIndex else if p.1 = h then kBadIndex
     else pointToIndex s h p.1 p.2.1 p.2.2,
   if p.2.1 = h then kBadIndex else if p.1 = -h then kBadIndex
     else sub32 (pointToIndex s h p.1 p.2.1 p.2.2) (s + 1)]

/-- A point lies in the closed unit cube of the cell with minimal corner `c`. -/
def inClosedCell (c q : ℤ × ℤ × ℤ) : Prop :=
  c.1 ≤ q.1 ∧ q.1 ≤ c.1 + 1 ∧ c.2.1 ≤ q.2.1 ∧ q.2.1 ≤ c.2.1 + 1 ∧
    c.2.2 ≤ q.2.2 ∧ q.2.2 ≤ c.2.2 + 1

/-- The X-edge with lesser endpoint `p` lies on the boundary of the cell
with minimal corner `c` (both endpoints in the cell's closed cube; for a
lattice edge this forces the edge onto the cube's surface). -/
def edgeOnCellX (p c : ℤ × ℤ × ℤ) : Prop :=
  inClosedCell c p ∧ inClosedCell c (p.1 + 1, p.2.1, p.2.2)

/-- Y-edge analogue of `edgeOnCellX`. -/
def edgeOnCellY (p c : ℤ × ℤ × ℤ) : Prop :=
  inClosedCell c p ∧ inClosedCell c (p.1, p.2.1 + 1, p.2.2)

/-- Z-edge analogue of `edgeOnCellX`. -/
def edgeOnCellZ (p c : ℤ × ℤ × ℤ) : Prop :=
  inClosedCell c p ∧ inClosedCell c (p.1, p.2.1, p.2.2 + 1)

/-- Index difference of two in-grid vertices, as a linear form. -/
theorem pointToIndex_linear (s : ℕ) (h x1 y1 z1 x2 y2 z2 : ℤ)
    (ha1 : -h ≤ x1) (ha2 : -h ≤ y1) (ha3 : -h ≤ z1)
    (hb1 : -h ≤ x2) (hb2 : -h ≤ y2) (hb3 : -h ≤ z2) :
    (pointToIndex s h x2 y2 z2 : ℤ) - (pointToIndex s h x1 y1 z1 : ℤ) =
      (y2 - y1) * (((s : ℤ) + 1) * ((s : ℤ) + 1)) + (x2 - x1) * ((s : ℤ) + 1) +
        (z2 - z1) := by
  rw [pointToIndex_eq_int s h x2 y2 z2 hb1 hb2 hb3,
    pointToIndex_eq_int s h x1 y1 z1 ha1 ha2 ha3]
  ring

/-- Collapsed form of one entry of `adjacentCellsForEdge`: two sentinel
guards followed by the surviving index computation. -/
theorem ite_chain_eq {ca cb P : Prop} [Decidable ca] [Decidable cb] [Decidable P]
    {w u : ℕ} (hP : P ↔ ¬ca ∧ ¬cb) (hw : ¬ca → ¬cb → w = u) :
    (if cb then kBadIndex else if ca then kBadIndex else w) =
      if P then u else kBadIndex := by
  by_cases hca : ca <;> by_cases hcb : cb
  · rw [if_pos hcb, if_neg (by tauto : ¬P)]
  · rw [if_neg hcb, if_pos hca, if_neg (by tauto : ¬P)]
  · rw [if_pos hcb, if_neg (by tauto : ¬P)]
  · rw [if_neg hcb, if_neg hca, hw hca hcb, if_pos (hP.mpr ⟨hca, hcb⟩)]

theorem adjacentCellsForEdgeX_eq (s : ℕ) (h x y z : ℤ) (hs : (s : ℤ) = 2 * h)
    (hbig : s ≤ 1024) (hedge : isEdgeInGridX h (x, y, z)) :
    adjacentCellsForEdgeX s h (x, y, z) =
      [if isCellInGrid h (x, y - 1, z - 1) then pointToIndex s h x (y - 1) (z - 1)
         else kBadIndex,
       if isCellInGrid h (x, y, z - 1) then pointToIndex s h x y (z - 1) else kBadIndex,
       if isCellInGrid h (x, y, z) then pointToIndex s h x y z else kBadIndex,
       if isCellInGrid h (x, y - 1, z) then pointToIndex s h x (y - 1) z else kBadIndex] := by
  rw [isEdgeInGridX_iff] at hedge
  obtain ⟨hx1, hx2, hy1, hy2, hz1, hz2⟩ := hedge
  have hsq : ((s : ℤ) + 1) * ((s : ℤ) + 1) = (((s + 1) * (s + 1) : ℕ) : ℤ) := by
    push_cast
    ring
  have hc2lt : pointToIndex s h x y z < (s + 1) * (s + 1) * (s + 1) :=
    pointToIndex_lt s h x y z hs (isVertexInGrid_iff.mpr (by omega))
  have hcube : (s + 1) * (s + 1) * (s + 1) ≤ 1025 * 1025 * 1025 := by
    have h1 : s + 1 ≤ 1025 := by omega
    exact Nat.mul_le_mul (Nat.mul_le_mul h1 h1) h1
  unfold adjacentCellsForEdgeX
  dsimp only
  simp only [List.cons.injEq, and_true]
  refine ⟨?_, ?_, ?_, ?_⟩
  · refine ite_chain_eq ?_ ?_
    · rw [isCellInGrid_iff]
      omega
    · intro hy hz
      have L1 : (pointToIndex s h x y z : ℤ) =
          pointToIndex s h x (y - 1) z + (((s + 1) * (s + 1) : ℕ) : ℤ) := by
        have hd := pointToIndex_linear s h x (y - 1) z x y z
          (by omega) (by omega) (by omega) (by omega) (by omega) (by omega)
        rw [hsq] at hd
        linear_combination hd
      have L2 : (pointToIndex s h x (y - 1) z : ℤ) =
          pointToIndex s h x (y - 1) (z - 1) + 1 := by
        have hd := pointToIndex_linear s h x (y - 1) (z - 1) x (y - 1) z
          (by omega) (by omega) (by omega) (by omega) (by omega) (by omega)
        rw [hsq] at hd
        linear_combination hd
      rw [sub32_exact (show (s + 1) * (s + 1) ≤ pointToIndex s h x y z by omega)
          (show pointToIndex s h x y z < 2 ^ 32 by omega),
        sub32_exact (by omega) (by omega)]
      omega
  · refine ite_chain_eq ?_ ?_
    · rw [isCellInGrid_iff]
      omega
    · intro hy hz
      have L2 : (pointToIndex s h x y z : ℤ) = pointToIndex s h x y (z - 1) + 1 := by
        have hd := pointToIndex_linear s h x y (z - 1) x y z
          (by omega) (by omega) (by omega) (by omega) (by omega) (by omega)
        rw [hsq] at hd
        linear_combination hd
      rw [sub32_exact (show 1 ≤ pointToIndex s h x y z by omega)
        (show pointToIndex s h x y z < 2 ^ 32 by omega)]
      omega
  · refine ite_chain_eq ?_ ?_
    · rw [isCellInGrid_iff]
      omega
    · intro hy hz
      rfl
  · refine ite_chain_eq ?_ ?_
    · rw [isCellInGrid_iff]
      omega
    · intro hy hz
      have L1 : (pointToIndex s h x y z : ℤ) =
          pointToIndex s h x (y - 1) z + (((s + 1) * (s + 1) : ℕ) : ℤ) := by
        have hd := pointToIndex_linear s h x (y - 1) z x y z
          (by omega) (by omega) (by omega) (by omega) (by omega) (by omega)
        rw [hsq] at hd
        linear_combination hd
      rw [sub32_exact (show (s + 1) * (s + 1) ≤ pointToIndex s h x y z by omega)
        (show pointToIndex s h x y z < 2 ^ 32 by omega)]
      omega

theorem adjacentCellsForEdgeY_eq (s : ℕ) (h x y z : ℤ) (hs : (s : ℤ) = 2 * h)
    (hbig : s ≤ 1024) (hedge : isEdgeInGridY h (x, y, z)) :
    adjacentCellsForEdgeY s h (x, y, z) =
      [if isCellInGrid h (x - 1, y, z - 1) then pointToIndex s h (x - 1) y (z - 1)
         else kBadIndex,
       if isCellInGrid h (x - 1, y, z) then pointToIndex s h (x - 1) y z else kBadIndex,
       if isCellInGrid h (x, y, z) then pointToIndex s h x y z else kBadIndex,
       if isCellInGrid h (x, y, z - 1) then pointToIndex s h x y (z - 1) else kBadIndex] := by
  rw [isEdgeInGridY_iff] at hedge
  obtain ⟨hx1, hx2, hy1, hy2, hz1, hz2⟩ := hedge
  have hsq : ((s : ℤ) + 1) * ((s : ℤ) + 1) = (((s + 1) * (s + 1) : ℕ) : ℤ) := by
    push_cast
    ring
  have hc2lt : pointToIndex s h x y z < (s + 1) * (s + 1) * (s + 1) :=
    pointToIndex_lt s h x y z hs (isVertexInGrid_iff.mpr (by omega))
  have hcube : (s + 1) * (s + 1) * (s + 1) ≤ 1025 * 1025 * 1025 := by
    have h1 : s + 1 ≤ 1025 := by omega
    exact Nat.mul_le_mul (Nat.mul_le_mul h1 h1) h1
  unfold adjacentCellsForEdgeY
  dsimp only
  simp only [List.cons.injEq, and_true]
  refine ⟨?_, ?_, ?_, ?_⟩
  · refine ite_chain_eq ?_ ?_
    · rw [isCellInGrid_iff]
      omega
    · intro hx hz
      have L1 : (pointToIndex s h x y z : ℤ) =
          pointToIndex s h (x - 1) y z + ((s : ℤ) + 1) := by
        have hd := pointToIndex_linear s h (x - 1) y z x y z
          (by omega) (by omega) (by omega) (by omega) (by omega) (by omega)
        rw [hsq] at hd
        linear_combination hd
      have L2 : (pointToIndex s h (x - 1) y z : ℤ) =
          pointToIndex s h (x - 1) y (z - 1) + 1 := by
        have hd := pointToIndex_linear s h (x - 1) y (z - 1) (x - 1) y z
          (by omega) (by omega) (by omega) (by omega) (by omega) (by omega)
        rw [hsq] at hd
        linear_combination hd
      rw [sub32_exact (show s + 1 ≤ pointToIndex s h x y z by omega)
          (show pointToIndex s h x y z < 2 ^ 32 by omega),
        sub32_exact (by omega) (by omega)]
      omega
  · refine ite_chain_eq ?_ ?_
    · rw [isCellInGrid_iff]
      omega
    · intro hx hz
      have L1 : (pointToIndex s h x y z : ℤ) =
          pointToIndex s h (x - 1) y z + ((s : ℤ) + 1) := by
        have hd := pointToIndex_linear s h (x - 1) y z x y z
          (by omega) (by omega) (by omega) (by omega) (by omega) (by omega)
        rw [hsq] at hd
        linear_combination hd
      rw [sub32_exact (show s + 1 ≤ pointToIndex s h x y z by omega)
        (show pointToIndex s h x y z < 2 ^ 32 by omega)]
      omega
  · refine ite_chain_eq ?_ ?_
    · rw [isCellInGrid_iff]
      omega
    · intro hx hz
      rfl
  · refine ite_chain_eq ?_ ?_
    · rw [isCellInGrid_iff]
      omega
    · intro hx hz
      have L2 : (pointToIndex s h x y z : ℤ) = pointToIndex s h x y (z - 1) + 1 := by
        have hd := pointToIndex_linear s h x y (z - 1) x y z
          (by omega) (by omega) (by omega) (by omega) (by omega) (by omega)
        rw [hsq] at hd
        linear_combination hd
      rw [sub32_exact (show 1 ≤ pointToIndex s h x y z by omega)
        (show pointToIndex s h x y z < 2 ^ 32 by omega)]
      omega

theorem adjacentCellsForEdgeZ_eq (s : ℕ) (h x y z : ℤ) (hs : (s : ℤ) = 2 * h)
    (hbig : s ≤ 1024) (hedge : isEdgeInGridZ h (x, y, z)) :
    adjacentCellsForEdgeZ s h (x, y, z) =
      [if isCellInGrid h (x - 1, y - 1, z) then pointToIndex s h (x - 1) (y - 1) z
         else kBadIndex,
       if isCellInGrid h (x, y - 1, z) then pointToIndex s h x (y - 1) z else kBadIndex,
       if isCellInGrid h (x, y, z) then pointToIndex s h x y z else kBadIndex,
       if isCellInGrid h (x - 1, y, z) then pointToIndex s h (x - 1) y z else kBadIndex] := by
  rw [isEdgeInGridZ_iff] at hedge
  obtain ⟨hx1, hx2, hy1, hy2, hz1, hz2⟩ := hedge
  have hsq : ((s : ℤ) + 1) * ((s : ℤ) + 1) = (((s + 1) * (s + 1) : ℕ) : ℤ) := by
    push_cast
    ring
  have hc2lt : pointToIndex s h x y z < (s + 1) * (s + 1) * (s + 1) :=
    pointToIndex_lt s h x y z hs (isVertexInGrid_iff.mpr (by omega))
  have hcube : (s + 1) * (s + 1) * (s + 1) ≤ 1025 * 1025 * 1025 := by
    have h1 : s + 1 ≤ 1025 := by omega
    exact Nat.mul_le_mul (Nat.mul_le_mul h1 h1) h1
  unfold adjacentCellsForEdgeZ
  dsimp only
  simp only [List.cons.injEq, and_true]
  refine ⟨?_, ?_, ?_, ?_⟩
  · refine ite_chain_eq ?_ ?_
    · rw [isCellInGrid_iff]
      omega
    · intro hx hy
      have L1 : (pointToIndex s h x y z : ℤ) =
          pointToIndex s h (x - 1) y z + ((s : ℤ) + 1) := by
        have hd := pointToIndex_linear s h (x - 1) y z x y z
          (by omega) (by omega) (by omega) (by omega) (by omega) (by omega)
        rw [hsq] at hd
        linear_combination hd
      have L2 : (pointToIndex s h (x - 1) y z : ℤ) =
          pointToIndex s h (x - 1) (y - 1) z + (((s + 1) * (s + 1) : ℕ) : ℤ) := by
        have hd := pointToIndex_linear s h (x - 1) (y - 1) z (x - 1) y z
          (by omega) (by omega) (by omega) (by omega) (by omega) (by omega)
        rw [hsq] at hd
        linear_combination hd
      rw [sub32_exact (show s + 1 ≤ pointToIndex s h x y z by omega)
          (show pointToIndex s h x y z < 2 ^ 32 by omega),
        sub32_exact (by omega) (by omega)]
      omega
  · refine ite_chain_eq ?_ ?_
    · rw [isCellInGrid_iff]
      omega
    · intro hx hy
      have L1 : (pointToIndex s h x y z : ℤ) =
          pointToIndex s h x (y - 1) z + (((s + 1) * (s + 1) : ℕ) : ℤ) := by
        have hd := pointToIndex_linear s h x (y - 1) z x y z
          (by omega) (by omega) (by omega) (by omega) (by omega) (by omega)
        rw [hsq] at hd
        linear_combination hd
      rw [sub32_exact (show (s + 1) * (s + 1) ≤ pointToIndex s h x y z by omega)
        (show pointToIndex s h x y z < 2 ^ 32 by omega)]
      omega
  · refine ite_chain_eq ?_ ?_
    · rw [isCellInGrid_iff]
      omega
    · intro hx hy
      rfl
  · refine ite_chain_eq ?_ ?_
    · rw [isCellInGrid_iff]
      omega
    · intro hx hy
      have L1 : (pointToIndex s h x y z : ℤ) =
          pointToIndex s h (x - 1) y z + ((s : ℤ) + 1) := by
        have hd := pointToIndex_linear s h (x - 1) y z x y z
          (by omega) (by omega) (by omega) (by omega) (by omega) (by omega)
        rw [hsq] at hd
        linear_combination hd
      rw [sub32_exact (show s + 1 ≤ pointToIndex s h x y z by omega)
        (show pointToIndex s h x y z < 2 ^ 32 by omega)]
      omega

/-- C8. For every in-grid edge of each axis, `adjacentCellsForEdge` returns
exactly 4 entries; an entry is the sentinel `kBadIndex` exactly when the
corresponding neighbouring cell falls outside the grid (no in-grid vertex
index collides with the sentinel), and otherwise it is `pointToIndex` of the
minimal corner of that in-grid cell — and the four candidate corners are
exactly the cells having the edge on their boundary. -/
theorem adjacentCellsForEdge_spec (s : ℕ) (h : ℤ) (hs : (s : ℤ) = 2 * h)
    (hbig : s ≤ 1024) :
    (∀ x y z : ℤ, isEdgeInGridX h (x, y, z) →
      adjacentCellsForEdgeX s h (x, y, z) =
        [if isCellInGrid h (x, y - 1, z - 1) then pointToIndex s h x (y - 1) (z - 1)
           else kBadIndex,
         if isCellInGrid h (x, y, z - 1) then pointToIndex s h x y (z - 1) else kBadIndex,
         if isCellInGrid h (x, y, z) then pointToIndex s h x y z else kBadIndex,
         if isCellInGrid h (x, y - 1, z) then pointToIndex s h x (y - 1) z
           else kBadIndex] ∧
      (∀ c : ℤ × ℤ × ℤ, edgeOnCellX (x, y, z) c ↔
        c ∈ [(x, y - 1, z - 1), (x, y, z - 1), (x, y, z), (x, y - 1, z)])) ∧
    (∀ x y z : ℤ, isEdgeInGridY h (x, y, z) →
      adjacentCellsForEdgeY s h (x, y, z) =
        [if isCellInGrid h (x - 1, y, z - 1) then pointToIndex s h (x - 1) y (z - 1)
           else kBadIndex,
         if isCellInGrid h (x - 1, y, z) then pointToIndex s h (x - 1) y z else kBadIndex,
         if isCellInGrid h (x, y, z) then pointToIndex s h x y z else kBadIndex,
         if isCellInGrid h (x, y, z - 1) then pointToIndex s h x y (z - 1)
           else kBadIndex] ∧
      (∀ c : ℤ × ℤ × ℤ, edgeOnCellY (x, y, z) c ↔
        c ∈ [(x - 1, y, z - 1), (x - 1, y, z), (x, y, z), (x, y, z - 1)])) ∧
    (∀ x y z : ℤ, isEdgeInGridZ h (x, y, z) →
      adjacentCellsForEdgeZ s h (x, y, z) =
        [if isCellInGrid h (x - 1, y - 1, z) then pointToIndex s h (x - 1) (y - 1) z
           else kBadIndex,
         if isCellInGrid h (x, y - 1, z) then pointToIndex s h x (y - 1) z else kBadIndex,
         if isCellInGrid h (x, y, z) then pointToIndex s h x y z else kBadIndex,
         if isCellInGrid h (x - 1, y, z) then pointToIndex s h (x - 1) y z
           else kBadIndex] ∧
      (∀ c : ℤ × ℤ × ℤ, edgeOnCellZ (x, y, z) c ↔
        c ∈ [(x - 1, y - 1, z), (x, y - 1, z), (x, y, z), (x - 1, y, z)])) ∧
    (∀ x' y' z' : ℤ, isVertexInGrid h x' y' z' →
      pointToIndex s h x' y' z' ≠ kBadIndex) := by
  have hNoCollide : ∀ x' y' z' : ℤ, isVertexInGrid h x' y' z' →
      pointToIndex s h x' y' z' ≠ kBadIndex := by
    intro x' y' z' hv
    have hlt := pointToIndex_lt s h x' y' z' hs hv
    have hcube : (s + 1) * (s + 1) * (s + 1) ≤ 1025 * 1025 * 1025 := by
      have h1 : s + 1 ≤ 1025 := by omega
      exact Nat.mul_le_mul (Nat.mul_le_mul h1 h1) h1
    unfold kBadIndex
    omega
  refine ⟨?_, ?_, ?_, hNoCollide⟩
  · intro x y z hedge
    refine ⟨adjacentCellsForEdgeX_eq s h x y z hs hbig hedge, ?_⟩
    rintro ⟨cx, cy, cz⟩
    unfold edgeOnCellX inClosedCell
    dsimp only
    simp only [List.mem_cons, List.not_mem_nil, or_false, Prod.mk.injEq]
    omega
  · intro x y z hedge
    refine ⟨adjacentCellsForEdgeY_eq s h x y z hs hbig hedge, ?_⟩
    rintro ⟨cx, cy, cz⟩
    unfold edgeOnCellY inClosedCell
    dsimp only
    simp only [List.mem_cons, List.not_mem_nil, or_false, Prod.mk.injEq]
    omega
  · intro x y z hedge
    refine ⟨adjacentCellsForEdgeZ_eq s h x y z hs hbig hedge, ?_⟩
    rintro ⟨cx, cy, cz⟩
    unfold edgeOnCellZ inClosedCell
    dsimp only
    simp only [List.mem_cons, List.not_mem_nil, or_false, Prod.mk.injEq]
    omega

/-- Witness for C8 on a size-2 grid: the X edge at `(0,1,0)` lies on the
`y = halfSize` border, so its two `y = 1` neighbour cells are the sentinel
while the two `y = 0` neighbour cells yield their corner indices; the corner
cell `(0,0,0)` indeed has this edge on its boundary. -/
theorem adjacentCellsForEdge_spec_witness :
    adjacentCellsForEdgeX 2 1 (0, 1, 0) = [12, kBadIndex, kBadIndex, 13] ∧
    edgeOnCellX (0, 1, 0) (0, 0, 0) := by
  have hspec := adjacentCellsForEdge_spec 2 1 (by norm_num) (by norm_num)
  have hX := hspec.1 0 1 0 (by decide)
  constructor
  · rw [hX.1]
    decide
  · exact (hX.2 (0, 0, 0)).mpr (by decide)

/-! ## QEF solver family (`qef_solver_3d.hpp`)

Only the interface header is part of the sources; the solver implementation
file is not, so the solver semantics below are modelled from the spec
(§4.2–§4.3) and settled against that model. -/

theorem Vec3.addX (a b : Vec3) : (a + b).x = a.x + b.x := rfl

theorem Vec3.addY (a b : Vec3) : (a + b).y = a.y + b.y := rfl

theorem Vec3.addZ (a b : Vec3) : (a + b).z = a.z + b.z := rfl

theorem Vec3.subX (a b : Vec3) : (a - b).x = a.x - b.x := rfl

theorem Vec3.subY (a b : Vec3) : (a - b).y = a.y - b.y := rfl

theorem Vec3.subZ (a b : Vec3) : (a - b).z = a.z - b.z := rfl

theorem Vec3.smulX (c : ℚ) (v : Vec3) : (c • v).x = c * v.x := rfl

theorem Vec3.smulY (c : ℚ) (v : Vec3) : (c • v).y = c * v.y := rfl

theorem Vec3.smulZ (c : ℚ) (v : Vec3) : (c • v).z = c * v.z := rfl

theorem Vec3.zeroX : (0 : Vec3).x = 0 := rfl

theorem Vec3.zeroY : (0 : Vec3).y = 0 := rfl

theorem Vec3.zeroZ : (0 : Vec3).z = 0 := rfl

theorem Vec3.eta (v : Vec3) : Vec3.mk v.x v.y v.z = v := rfl

theorem Vec3.ext_comp {a b : Vec3} (hx : a.x = b.x) (hy : a.y = b.y) (hz : a.z = b.z) :
    a = b := by
  cases a
  cases b
  simp_all

theorem dot_add_right (n a b : Vec3) : dot n (a + b) = dot n a + dot n b := by
  unfold dot
  rw [Vec3.addX, Vec3.addY, Vec3.addZ]
  ring

theorem dot_sub_right (n a b : Vec3) : dot n (a - b) = dot n a - dot n b := by
  unfold dot
  rw [Vec3.subX, Vec3.subY, Vec3.subZ]
  ring

theorem dot_smul_right (n : Vec3) (c : ℚ) (v : Vec3) : dot n (c • v) = c * dot n v := by
  unfold dot
  rw [Vec3.smulX, Vec3.smulY, Vec3.smulZ]
  ring

theorem dot_zero_right (n : Vec3) : dot n 0 = 0 := by
  unfold dot
  rw [Vec3.zeroX, Vec3.zeroY, Vec3.zeroZ]
  ring

theorem norm2_nonneg (v : Vec3) : 0 ≤ norm2 v := by
  unfold norm2 dot
  have h1 := mul_self_nonneg v.x
  have h2 := mul_self_nonneg v.y
  have h3 := mul_self_nonneg v.z
  linarith

theorem norm2_pos {v : Vec3} (hv : v ≠ 0) : 0 < norm2 v := by
  rcases lt_or_eq_of_le (norm2_nonneg v) with hlt | heq
  · exact hlt
  · exfalso
    apply hv
    obtain ⟨a, b, c⟩ := v
    unfold norm2 dot at heq
    dsimp at heq
    have ha : a = 0 := by nlinarith [sq_nonneg a, sq_nonneg b, sq_nonneg c]
    have hb : b = 0 := by nlinarith [sq_nonneg a, sq_nonneg b, sq_nonneg c]
    have hc : c = 0 := by nlinarith [sq_nonneg a, sq_nonneg b, sq_nonneg c]
    rw [ha, hb, hc]
    rfl

/-- Sum of a list of vectors (the running mass-point sum `m_pointsSum`). -/
def sumV (pts : List Vec3) : Vec3 := pts.foldr (· + ·) 0

theorem sumV_components (pts : List Vec3) :
    sumV pts = ⟨(pts.map Vec3.x).sum, (pts.map Vec3.y).sum, (pts.map Vec3.z).sum⟩ := by
  induction pts with
  | nil => rfl
  | cons a l ih =>
    unfold sumV at *
    rw [List.foldr_cons, ih]
    apply Vec3.ext_comp <;> simp [Vec3.addX, Vec3.addY, Vec3.addZ]

theorem dot_sumV (n : Vec3) (pts : List Vec3) :
    dot n (sumV pts) = (pts.map fun q => dot n q).sum := by
  induction pts with
  | nil =>
    unfold sumV
    rw [List.foldr_nil, dot_zero_right, List.map_nil, List.sum_nil]
  | cons a l ih =>
    unfold sumV at *
    rw [List.foldr_cons, dot_add_right, ih, List.map_cons, List.sum_cons]

/-- Modelled from the spec: the mass point, the arithmetic mean of all added
points (spec §3/§4.2; the implementation file of the solvers is absent from
`src/`). -/
def massPoint (pts : List Vec3) : Vec3 := ((pts.length : ℚ))⁻¹ • sumV pts

/-- The quadratic error function `Σ (normalᵢ · (p - pointᵢ))²` over the
accumulated planes (spec §4.2, glossary). -/
def QefVal (planes : List (Vec3 × Vec3)) (p : Vec3) : ℚ :=
  (planes.map fun pl => dot pl.2 (p - pl.1) ^ 2).sum

/-- The serializable compressed solver state (`QrQefSolver3D::QefData`,
field names from the header, which is part of the sources). Modelled from
the spec: the solver implementation is absent from `src/`, and per spec §3
the compressed representation is exact for the least-squares objective, so
the matrix part is modelled by the normal-equation sums it represents
(`a_ij = Σ nᵢnⱼ`, `b_i = Σ (n·p) nᵢ`, `r2 = Σ (n·p)²`; the triangular QR
factor of the source determines and is determined by these sums). The
`dim` field (feature dimension) is a rank value recomputed from the matrix
at solve time and carries no accumulation state, so it is omitted. -/
structure QefData where
  a_11 : ℚ
  a_12 : ℚ
  a_13 : ℚ
  b_1 : ℚ
  a_22 : ℚ
  a_23 : ℚ
  b_2 : ℚ
  a_33 : ℚ
  b_3 : ℚ
  r2 : ℚ
  mpx : ℚ
  mpy : ℚ
  mpz : ℚ
  mp_cnt : ℕ
deriving DecidableEq, Repr

/-- The empty accumulation (`reset` state). -/
def emptyQefData : QefData := ⟨0, 0, 0, 0, 0, 0, 0, 0, 0, 0, 0, 0, 0, 0⟩

/-- Modelled from the spec: `addPlane` folds one plane `(point, normal)`
into the compressed state and the mass-point running sum. -/
def addPlaneData (d : QefData) (pt nrm : Vec3) : QefData where
  a_11 := d.a_11 + nrm.x * nrm.x
  a_12 := d.a_12 + nrm.x * nrm.y
  a_13 := d.a_13 + nrm.x * nrm.z
  b_1 := d.b_1 + dot nrm pt * nrm.x
  a_22 := d.a_22 + nrm.y * nrm.y
  a_23 := d.a_23 + nrm.y * nrm.z
  b_2 := d.b_2 + dot nrm pt * nrm.y
  a_33 := d.a_33 + nrm.z * nrm.z
  b_3 := d.b_3 + dot nrm pt * nrm.z
  r2 := d.r2 + dot nrm pt * dot nrm pt
  mpx := d.mpx + pt.x
  mpy := d.mpy + pt.y
  mpz := d.mpz + pt.z
  mp_cnt := d.mp_cnt + 1

/-- Accumulating a whole list of planes into a fresh solver. -/
def accumulateQef (planes : List (Vec3 × Vec3)) : QefData :=
  planes.foldl (fun d pl => addPlaneData d pl.1 pl.2) emptyQefData

/-- Modelled from the spec: `merge` folds another solver's compressed state
in, as if its planes had been added directly (spec §4.3); on the exact
normal-equation representation this is componentwise addition. -/
def mergeQefData (a b : QefData) : QefData where
  a_11 := a.a_11 + b.a_11
  a_12 := a.a_12 + b.a_12
  a_13 := a.a_13 + b.a_13
  b_1 := a.b_1 + b.b_1
  a_22 := a.a_22 + b.a_22
  a_23 := a.a_23 + b.a_23
  b_2 := a.b_2 + b.b_2
  a_33 := a.a_33 + b.a_33
  b_3 := a.b_3 + b.b_3
  r2 := a.r2 + b.r2
  mpx := a.mpx + b.mpx
  mpy := a.mpy + b.mpy
  mpz := a.mpz + b.mpz
  mp_cnt := a.mp_cnt + b.mp_cnt

/-- The QEF value represented by a compressed state:
`pᵀAp - 2bᵀp + r2` (spec §4.2 `eval`). -/
def qefDataEval (d : QefData) (p : Vec3) : ℚ :=
  d.a_11 * p.x * p.x + d.a_22 * p.y * p.y + d.a_33 * p.z * p.z +
    2 * (d.a_12 * p.x * p.y + d.a_13 * p.x * p.z + d.a_23 * p.y * p.z) -
    2 * (d.b_1 * p.x + d.b_2 * p.y + d.b_3 * p.z) + d.r2

theorem merge_addPlaneData (a b : QefData) (pt nrm : Vec3) :
    mergeQefData a (addPlaneData b pt nrm) = addPlaneData (mergeQefData a b) pt nrm := by
  unfold mergeQefData addPlaneData
  simp only [QefData.mk.injEq]
  refine ⟨?_, ?_, ?_, ?_, ?_, ?_, ?_, ?_, ?_, ?_, ?_, ?_, ?_, ?_⟩ <;> ring

theorem merge_emptyQefData (a : QefData) : mergeQefData a emptyQefData = a := by
  cases a
  unfold mergeQefData emptyQefData
  simp only [QefData.mk.injEq]
  refine ⟨?_, ?_, ?_, ?_, ?_, ?_, ?_, ?_, ?_, ?_, ?_, ?_, ?_, ?_⟩ <;> ring

theorem merge_foldl (l : List (Vec3 × Vec3)) :
    ∀ a b : QefData,
      (l.foldl (fun d pl => addPlaneData d pl.1 pl.2) (mergeQefData a b)) =
        mergeQefData a (l.foldl (fun d pl => addPlaneData d pl.1 pl.2) b) := by
  induction l with
  | nil =>
    intro a b
    rfl
  | cons pl l ih =>
    intro a b
    rw [List.foldl_cons, List.foldl_cons, ← merge_addPlaneData, ih]

theorem qefDataEval_foldl (l : List (Vec3 × Vec3)) :
    ∀ (d : QefData) (p : Vec3),
      qefDataEval (l.foldl (fun d pl => addPlaneData d pl.1 pl.2) d) p =
        qefDataEval d p + QefVal l p := by
  induction l with
  | nil =>
    intro d p
    unfold QefVal
    rw [List.foldl_nil, List.map_nil, List.sum_nil, add_zero]
  | cons pl l ih =>
    intro d p
    rw [List.foldl_cons, ih]
    unfold QefVal
    rw [List.map_cons, List.sum_cons]
    have hstep : qefDataEval (addPlaneData d pl.1 pl.2) p =
        qefDataEval d p + dot pl.2 (p - pl.1) ^ 2 := by
      unfold qefDataEval addPlaneData dot
      rw [Vec3.subX, Vec3.subY, Vec3.subZ]
      ring
    rw [hstep]
    ring

/-- C4. Merging the compressed states of two partial accumulations equals
accumulating all planes in one solver; the merge composition is commutative
and associative; and the merged state represents exactly the QEF of the
union of the planes, so `solve` on the merged state and on the directly
accumulated state see the same objective, mass-point sum and count. -/
theorem qefData_merge_spec :
    (∀ l1 l2 : List (Vec3 × Vec3),
      mergeQefData (accumulateQef l1) (accumulateQef l2) = accumulateQef (l1 ++ l2)) ∧
    (∀ a b : QefData, mergeQefData a b = mergeQefData b a) ∧
    (∀ a b c : QefData,
      mergeQefData (mergeQefData a b) c = mergeQefData a (mergeQefData b c)) ∧
    (∀ (l : List (Vec3 × Vec3)) (p : Vec3),
      qefDataEval (accumulateQef l) p = QefVal l p) ∧
    (∀ (l1 l2 : List (Vec3 × Vec3)) (p : Vec3),
      qefDataEval (mergeQefData (accumulateQef l1) (accumulateQef l2)) p =
        QefVal (l1 ++ l2) p) := by
  have hmain : ∀ l1 l2 : List (Vec3 × Vec3),
      mergeQefData (accumulateQef l1) (accumulateQef l2) = accumulateQef (l1 ++ l2) := by
    intro l1 l2
    unfold accumulateQef
    rw [List.foldl_append, ← merge_foldl, merge_emptyQefData]
  have hexact : ∀ (l : List (Vec3 × Vec3)) (p : Vec3),
      qefDataEval (accumulateQef l) p = QefVal l p := by
    intro l p
    unfold accumulateQef
    rw [qefDataEval_foldl]
    have hempty : qefDataEval emptyQefData p = 0 := by
      unfold qefDataEval emptyQefData
      ring
    rw [hempty, zero_add]
  refine ⟨hmain, ?_, ?_, hexact, ?_⟩
  · intro a b
    unfold mergeQefData
    simp only [QefData.mk.injEq]
    refine ⟨?_, ?_, ?_, ?_, ?_, ?_, ?_, ?_, ?_, ?_, ?_, ?_, ?_, ?_⟩ <;> ring
  · intro a b c
    unfold mergeQefData
    simp only [QefData.mk.injEq]
    refine ⟨?_, ?_, ?_, ?_, ?_, ?_, ?_, ?_, ?_, ?_, ?_, ?_, ?_, ?_⟩ <;> ring
  · intro l1 l2 p
    rw [hmain, hexact]

/-! ### The modelled `solve` (general configurations)

`solve` is modelled from the spec for an arbitrary accumulated plane set:
the QEF minimizers form the affine solution set of the normal equations
`A p = b` (with `A = Σ nᵢnᵢᵀ` and `b = Σ (nᵢ·pᵢ)nᵢ`, the sums held in a
`QefData`), and the spec resolves the remaining degrees of freedom — for a
sheet, a line, or a full-rank point alike — by projecting the mass point
onto that affine set. The projection displacement is the unique solution
`v ⊥ ker A` of `A v = b − A m`, computed rank-case-wise below from the
characteristic polynomial of the positive-semidefinite matrix `A`. -/

/-- The symmetric matrix `A` held in a `QefData`, applied to a vector. -/
def qefMatVec (d : QefData) (u : Vec3) : Vec3 :=
  ⟨d.a_11 * u.x + d.a_12 * u.y + d.a_13 * u.z,
   d.a_12 * u.x + d.a_22 * u.y + d.a_23 * u.z,
   d.a_13 * u.x + d.a_23 * u.y + d.a_33 * u.z⟩

/-- The right-hand side `b` held in a `QefData`. -/
def qefB (d : QefData) : Vec3 := ⟨d.b_1, d.b_2, d.b_3⟩

/-- Trace of the matrix of a `QefData` (first invariant of `A`). -/
def qefTrace (d : QefData) : ℚ := d.a_11 + d.a_22 + d.a_33

/-- Sum of the principal 2×2 minors (second invariant of `A`). -/
def qefMinor2 (d : QefData) : ℚ :=
  (d.a_22 * d.a_33 - d.a_23 * d.a_23) + (d.a_11 * d.a_33 - d.a_13 * d.a_13) +
    (d.a_11 * d.a_22 - d.a_12 * d.a_12)

/-- Determinant of the matrix of a `QefData` (third invariant of `A`). -/
def qefDet (d : QefData) : ℚ :=
  d.a_11 * (d.a_22 * d.a_33 - d.a_23 * d.a_23) +
    d.a_12 * (d.a_13 * d.a_23 - d.a_12 * d.a_33) +
    d.a_13 * (d.a_12 * d.a_23 - d.a_22 * d.a_13)

/-- The adjugate of the (symmetric) matrix of a `QefData`, applied to a
vector. -/
def adjVec (d : QefData) (r : Vec3) : Vec3 :=
  ⟨(d.a_22 * d.a_33 - d.a_23 * d.a_23) * r.x + (d.a_13 * d.a_23 - d.a_12 * d.a_33) * r.y +
     (d.a_12 * d.a_23 - d.a_22 * d.a_13) * r.z,
   (d.a_13 * d.a_23 - d.a_12 * d.a_33) * r.x + (d.a_11 * d.a_33 - d.a_13 * d.a_13) * r.y +
     (d.a_12 * d.a_13 - d.a_11 * d.a_23) * r.z,
   (d.a_12 * d.a_23 - d.a_22 * d.a_13) * r.x + (d.a_12 * d.a_13 - d.a_11 * d.a_23) * r.y +
     (d.a_11 * d.a_22 - d.a_12 * d.a_12) * r.z⟩

/-- Modelled from the spec: the minimum-norm solution of `A v = r` for the
positive-semidefinite matrix of an accumulated `QefData` and a right-hand
side `r` orthogonal to `ker A`, by cases on the rank through the invariants
of the characteristic polynomial `λ³ − t·λ² + s·λ − det`. -/
def pinvApply (d : QefData) (r : Vec3) : Vec3 :=
  if qefDet d ≠ 0 then (qefDet d)⁻¹ • adjVec d r
  else if qefMinor2 d ≠ 0 then (qefMinor2 d)⁻¹ • (qefTrace d • r - qefMatVec d r)
  else if qefTrace d ≠ 0 then (qefTrace d)⁻¹ • r
  else 0

/-- Modelled from the spec: `QrQefSolver3D::solve` (implementation absent
from `src/`) — among all minimizers of the accumulated QEF, the one closest
to the mass point, obtained by projecting the mass point onto the affine
subspace of minimizers (spec §4.2/§4.3). -/
def solveQef (planes : List (Vec3 × Vec3)) : Vec3 :=
  massPoint (planes.map fun pl => pl.1) +
    pinvApply (accumulateQef planes)
      (qefB (accumulateQef planes) -
        qefMatVec (accumulateQef planes) (massPoint (planes.map fun pl => pl.1)))

theorem dot_comm (a b : Vec3) : dot a b = dot b a := by
  unfold dot
  ring

theorem dot_zero_left (a : Vec3) : dot 0 a = 0 := by
  unfold dot
  dsimp only [Vec3.zeroX, Vec3.zeroY, Vec3.zeroZ]
  ring

theorem dot_smul_left (c : ℚ) (a b : Vec3) : dot (c • a) b = c * dot a b := by
  unfold dot
  dsimp only [Vec3.smulX, Vec3.smulY, Vec3.smulZ]
  ring

theorem qefMatVec_symm (d : QefData) (u v : Vec3) :
    dot u (qefMatVec d v) = dot v (qefMatVec d u) := by
  unfold dot qefMatVec
  dsimp only
  ring

theorem qefMatVec_add (d : QefData) (a b : Vec3) :
    qefMatVec d (a + b) = qefMatVec d a + qefMatVec d b := by
  unfold qefMatVec
  apply Vec3.ext_comp <;>
    dsimp only [Vec3.addX, Vec3.addY, Vec3.addZ] <;> ring

theorem qefMatVec_sub (d : QefData) (a b : Vec3) :
    qefMatVec d (a - b) = qefMatVec d a - qefMatVec d b := by
  unfold qefMatVec
  apply Vec3.ext_comp <;>
    dsimp only [Vec3.subX, Vec3.subY, Vec3.subZ] <;> ring

theorem qefMatVec_smul (d : QefData) (c : ℚ) (u : Vec3) :
    qefMatVec d (c • u) = c • qefMatVec d u := by
  unfold qefMatVec
  apply Vec3.ext_comp <;>
    dsimp only [Vec3.smulX, Vec3.smulY, Vec3.smulZ] <;> ring

theorem qefMatVec_zero (d : QefData) : qefMatVec d 0 = 0 := by
  unfold qefMatVec
  apply Vec3.ext_comp <;>
    dsimp only [Vec3.zeroX, Vec3.zeroY, Vec3.zeroZ] <;> ring

/-- `adj(A) · A = det(A) · I` for the symmetric matrix of a `QefData`. -/
theorem adjVec_matVec (d : QefData) (u : Vec3) :
    adjVec d (qefMatVec d u) = qefDet d • u := by
  unfold adjVec qefMatVec qefDet
  apply Vec3.ext_comp <;>
    dsimp only [Vec3.smulX, Vec3.smulY, Vec3.smulZ] <;> ring

/-- `A · adj(A) = det(A) · I` for the symmetric matrix of a `QefData`. -/
theorem matVec_adjVec (d : QefData) (r : Vec3) :
    qefMatVec d (adjVec d r) = qefDet d • r := by
  unfold adjVec qefMatVec qefDet
  apply Vec3.ext_comp <;>
    dsimp only [Vec3.smulX, Vec3.smulY, Vec3.smulZ] <;> ring

/-- Cayley–Hamilton for the symmetric matrix of a `QefData`:
`A³ = t·A² − s·A + det·I` applied to a vector. -/
theorem cayley (d : QefData) (r : Vec3) :
    qefMatVec d (qefMatVec d (qefMatVec d r)) =
      qefTrace d • qefMatVec d (qefMatVec d r) - qefMinor2 d • qefMatVec d r +
        qefDet d • r := by
  unfold qefMatVec qefTrace qefMinor2 qefDet
  apply Vec3.ext_comp <;>
    dsimp only [Vec3.addX, Vec3.addY, Vec3.addZ, Vec3.subX, Vec3.subY, Vec3.subZ,
      Vec3.smulX, Vec3.smulY, Vec3.smulZ] <;> ring

/-- Second-order expansion of the represented QEF around a point. -/
theorem qefDataEval_expand (d : QefData) (p q : Vec3) :
    qefDataEval d q - qefDataEval d p =
      dot (q - p) (qefMatVec d (q - p)) +
        2 * dot (q - p) (qefMatVec d p - qefB d) := by
  unfold qefDataEval qefMatVec qefB dot
  dsimp only [Vec3.subX, Vec3.subY, Vec3.subZ]
  ring

theorem list_sum_nonneg {cs : List ℚ} (h : ∀ c ∈ cs, 0 ≤ c) : 0 ≤ cs.sum := by
  induction cs with
  | nil =>
    rw [List.sum_nil]
  | cons a l ih =>
    rw [List.sum_cons]
    have ha := h a (List.mem_cons_self a l)
    have hl := ih fun c hc => h c (List.mem_cons_of_mem a hc)
    linarith

theorem list_sum_eq_zero {cs : List ℚ} (h : ∀ c ∈ cs, c = 0) : cs.sum = 0 := by
  induction cs with
  | nil =>
    rw [List.sum_nil]
  | cons a l ih =>
    rw [List.sum_cons, h a (List.mem_cons_self a l),
      ih fun c hc => h c (List.mem_cons_of_mem a hc), add_zero]

theorem list_sum_nonneg_all_zero {cs : List ℚ} (hpos : ∀ c ∈ cs, 0 ≤ c)
    (hsum : cs.sum = 0) : ∀ c ∈ cs, c = 0 := by
  induction cs with
  | nil =>
    intro c hc
    exact absurd hc (List.not_mem_nil c)
  | cons a l ih =>
    have ha := hpos a (List.mem_cons_self a l)
    have hl : ∀ c ∈ l, 0 ≤ c := fun c hc => hpos c (List.mem_cons_of_mem a hc)
    have hls := list_sum_nonneg hl
    rw [List.sum_cons] at hsum
    intro c hc
    rcases List.mem_cons.mp hc with rfl | hc'
    · linarith
    · exact ih hl (by linarith) c hc'

/-- Folding one plane into a `QefData` adds the rank-one update to `A`. -/
theorem qefMatVec_addPlane (d : QefData) (pt nrm u : Vec3) :
    qefMatVec (addPlaneData d pt nrm) u = qefMatVec d u + dot nrm u • nrm := by
  unfold qefMatVec addPlaneData dot
  apply Vec3.ext_comp <;>
    dsimp only [Vec3.addX, Vec3.addY, Vec3.addZ, Vec3.smulX, Vec3.smulY, Vec3.smulZ] <;>
    ring

/-- Folding one plane into a `QefData` adds `(n·p) n` to `b`. -/
theorem qefB_addPlane (d : QefData) (pt nrm : Vec3) :
    qefB (addPlaneData d pt nrm) = qefB d + dot nrm pt • nrm := by
  unfold qefB addPlaneData
  apply Vec3.ext_comp <;>
    dsimp only [Vec3.addX, Vec3.addY, Vec3.addZ, Vec3.smulX, Vec3.smulY, Vec3.smulZ] <;>
    ring

/-- Folding one plane adds the squared normal length to the trace. -/
theorem qefTrace_addPlane (d : QefData) (pt nrm : Vec3) :
    qefTrace (addPlaneData d pt nrm) = qefTrace d + norm2 nrm := by
  unfold qefTrace addPlaneData norm2 dot
  ring

/-- The quadratic form of the accumulated matrix is the sum of squares of
the plane-normal components along `u` (so `A` is positive semidefinite). -/
theorem dot_matVec_foldl (l : List (Vec3 × Vec3)) :
    ∀ (d : QefData) (u : Vec3),
      dot u (qefMatVec (l.foldl (fun d pl => addPlaneData d pl.1 pl.2) d) u) =
        dot u (qefMatVec d u) + (l.map fun pl => dot pl.2 u ^ 2).sum := by
  induction l with
  | nil =>
    intro d u
    rw [List.foldl_nil, List.map_nil, List.sum_nil, add_zero]
  | cons pl l ih =>
    intro d u
    rw [List.foldl_cons, ih, List.map_cons, List.sum_cons]
    have hstep : dot u (qefMatVec (addPlaneData d pl.1 pl.2) u) =
        dot u (qefMatVec d u) + dot pl.2 u ^ 2 := by
      rw [qefMatVec_addPlane, dot_add_right, dot_smul_right, dot_comm pl.2 u]
      ring
    rw [hstep]
    ring

theorem dot_b_foldl (l : List (Vec3 × Vec3)) :
    ∀ (d : QefData) (u : Vec3),
      dot u (qefB (l.foldl (fun d pl => addPlaneData d pl.1 pl.2) d)) =
        dot u (qefB d) + (l.map fun pl => dot pl.2 pl.1 * dot pl.2 u).sum := by
  induction l with
  | nil =>
    intro d u
    rw [List.foldl_nil, List.map_nil, List.sum_nil, add_zero]
  | cons pl l ih =>
    intro d u
    rw [List.foldl_cons, ih, List.map_cons, List.sum_cons]
    have hstep : dot u (qefB (addPlaneData d pl.1 pl.2)) =
        dot u (qefB d) + dot pl.2 pl.1 * dot pl.2 u := by
      rw [qefB_addPlane, dot_add_right, dot_smul_right, dot_comm pl.2 u]
    rw [hstep]
    ring

theorem qefTrace_foldl (l : List (Vec3 × Vec3)) :
    ∀ d : QefData,
      qefTrace (l.foldl (fun d pl => addPlaneData d pl.1 pl.2) d) =
        qefTrace d + (l.map fun pl => norm2 pl.2).sum := by
  induction l with
  | nil =>
    intro d
    rw [List.foldl_nil, List.map_nil, List.sum_nil, add_zero]
  | cons pl l ih =>
    intro d
    rw [List.foldl_cons, ih, qefTrace_addPlane, List.map_cons, List.sum_cons]
    ring

theorem quadform_accumulate (l : List (Vec3 × Vec3)) (u : Vec3) :
    dot u (qefMatVec (accumulateQef l) u) = (l.map fun pl => dot pl.2 u ^ 2).sum := by
  unfold accumulateQef
  rw [dot_matVec_foldl]
  have hz : dot u (qefMatVec emptyQefData u) = 0 := by
    unfold qefMatVec emptyQefData dot
    dsimp only
    ring
  rw [hz, zero_add]

theorem quadform_nonneg (l : List (Vec3 × Vec3)) (u : Vec3) :
    0 ≤ dot u (qefMatVec (accumulateQef l) u) := by
  rw [quadform_accumulate]
  apply list_sum_nonneg
  intro c hc
  obtain ⟨pl, _, rfl⟩ := List.mem_map.mp hc
  exact sq_nonneg _

/-- A vector in the kernel of the accumulated matrix is orthogonal to every
plane normal. -/
theorem ker_normals (l : List (Vec3 × Vec3)) (u : Vec3)
    (hk : qefMatVec (accumulateQef l) u = 0) : ∀ pl ∈ l, dot pl.2 u = 0 := by
  have hq : (l.map fun pl => dot pl.2 u ^ 2).sum = 0 := by
    rw [← quadform_accumulate, hk, dot_zero_right]
  have hall := list_sum_nonneg_all_zero
    (fun c hc => by
      obtain ⟨pl, _, rfl⟩ := List.mem_map.mp hc
      exact sq_nonneg _) hq
  intro pl hpl
  have := hall (dot pl.2 u ^ 2) (List.mem_map_of_mem _ hpl)
  exact pow_eq_zero_iff (by norm_num) |>.mp this

/-- A vector in the kernel of the accumulated matrix is orthogonal to the
accumulated right-hand side `b`. -/
theorem ker_perp_b (l : List (Vec3 × Vec3)) (u : Vec3)
    (hk : qefMatVec (accumulateQef l) u = 0) : dot u (qefB (accumulateQef l)) = 0 := by
  have hb : dot u (qefB (accumulateQef l)) =
      (l.map fun pl => dot pl.2 pl.1 * dot pl.2 u).sum := by
    unfold accumulateQef
    rw [dot_b_foldl]
    have hz : dot u (qefB emptyQefData) = 0 := by
      unfold qefB emptyQefData dot
      dsimp only
      ring
    rw [hz, zero_add]
  rw [hb]
  apply list_sum_eq_zero
  intro c hc
  obtain ⟨pl, hpl, rfl⟩ := List.mem_map.mp hc
  rw [ker_normals l u hk pl hpl, mul_zero]

/-- If the accumulated trace vanishes then every plane normal is zero, so
the accumulated `A` and `b` vanish identically. -/
theorem trace_zero_degenerate (l : List (Vec3 × Vec3))
    (ht : qefTrace (accumulateQef l) = 0) :
    (∀ u : Vec3, qefMatVec (accumulateQef l) u = 0) ∧ qefB (accumulateQef l) = 0 := by
  have htr : (l.map fun pl => norm2 pl.2).sum = 0 := by
    have := qefTrace_foldl l emptyQefData
    unfold accumulateQef at ht
    rw [this] at ht
    have hz : qefTrace emptyQefData = 0 := by
      unfold qefTrace emptyQefData
      ring
    rw [hz, zero_add] at ht
    exact ht
  have hzero : ∀ pl ∈ l, pl.2 = (0 : Vec3) := by
    intro pl hpl
    have hn := list_sum_nonneg_all_zero
      (fun c hc => by
        obtain ⟨q, _, rfl⟩ := List.mem_map.mp hc
        exact norm2_nonneg _) htr (norm2 pl.2) (List.mem_map_of_mem _ hpl)
    by_contra hne
    exact absurd hn (ne_of_gt (norm2_pos hne))
  have key : ∀ (ll : List (Vec3 × Vec3)) (d : QefData), (∀ pl ∈ ll, pl.2 = (0 : Vec3)) →
      (∀ u, qefMatVec (ll.foldl (fun d pl => addPlaneData d pl.1 pl.2) d) u =
        qefMatVec d u) ∧
      qefB (ll.foldl (fun d pl => addPlaneData d pl.1 pl.2) d) = qefB d := by
    intro ll
    induction ll with
    | nil =>
      intro d _
      exact ⟨fun u => rfl, rfl⟩
    | cons pl ll ih =>
      intro d hall
      have hhd : pl.2 = (0 : Vec3) := hall pl (List.mem_cons_self pl ll)
      have htl : ∀ q ∈ ll, q.2 = (0 : Vec3) := fun q hq => hall q (List.mem_cons_of_mem pl hq)
      rw [List.foldl_cons]
      obtain ⟨ihA, ihb⟩ := ih (addPlaneData d pl.1 pl.2) htl
      constructor
      · intro u
        rw [ihA u, qefMatVec_addPlane, hhd, dot_zero_left]
        apply Vec3.ext_comp <;>
          dsimp only [Vec3.addX, Vec3.addY, Vec3.addZ, Vec3.smulX, Vec3.smulY, Vec3.smulZ,
            Vec3.zeroX, Vec3.zeroY, Vec3.zeroZ] <;> ring
      · rw [ihb, qefB_addPlane, hhd]
        apply Vec3.ext_comp <;>
          dsimp only [Vec3.addX, Vec3.addY, Vec3.addZ, Vec3.smulX, Vec3.smulY, Vec3.smulZ,
            Vec3.zeroX, Vec3.zeroY, Vec3.zeroZ] <;> ring
  obtain ⟨hA, hb⟩ := key l emptyQefData hzero
  constructor
  · intro u
    have := hA u
    unfold accumulateQef
    rw [this]
    unfold qefMatVec emptyQefData
    apply Vec3.ext_comp <;>
      dsimp only [Vec3.zeroX, Vec3.zeroY, Vec3.zeroZ] <;> ring
  · unfold accumulateQef
    rw [hb]
    unfold qefB emptyQefData
    apply Vec3.ext_comp <;>
      dsimp only [Vec3.zeroX, Vec3.zeroY, Vec3.zeroZ] <;> ring

theorem qefDataEval_accumulate (l : List (Vec3 × Vec3)) (p : Vec3) :
    qefDataEval (accumulateQef l) p = QefVal l p := by
  unfold accumulateQef
  rw [qefDataEval_foldl]
  have hempty : qefDataEval emptyQefData p = 0 := by
    unfold qefDataEval emptyQefData
    ring
  rw [hempty, zero_add]

theorem Vec3.sub_eq_zero_iff {a b : Vec3} : a - b = 0 ↔ a = b := by
  constructor
  · intro h
    have hx := congrArg Vec3.x h
    have hy := congrArg Vec3.y h
    have hz := congrArg Vec3.z h
    rw [Vec3.subX, Vec3.zeroX] at hx
    rw [Vec3.subY, Vec3.zeroY] at hy
    rw [Vec3.subZ, Vec3.zeroZ] at hz
    apply Vec3.ext_comp <;> linarith
  · intro h
    rw [h]
    apply Vec3.ext_comp <;>
      dsimp only [Vec3.subX, Vec3.subY, Vec3.subZ, Vec3.zeroX, Vec3.zeroY, Vec3.zeroZ] <;>
      ring

theorem eq_zero_of_norm2_eq_zero {w : Vec3} (h : norm2 w = 0) : w = 0 := by
  by_contra hne
  exact absurd h (ne_of_gt (norm2_pos hne))

/-- A point satisfying the normal equations minimizes the QEF. -/
theorem normal_to_minimizer (l : List (Vec3 × Vec3)) (p : Vec3)
    (hp : qefMatVec (accumulateQef l) p = qefB (accumulateQef l)) :
    ∀ q : Vec3, QefVal l p ≤ QefVal l q := by
  intro q
  have hexp := qefDataEval_expand (accumulateQef l) p q
  rw [qefDataEval_accumulate, qefDataEval_accumulate] at hexp
  have hzero : qefMatVec (accumulateQef l) p - qefB (accumulateQef l) = 0 :=
    Vec3.sub_eq_zero_iff.mpr hp
  rw [hzero, dot_zero_right] at hexp
  have hquad := quadform_nonneg l (q - p)
  linarith

/-- If the normal equations fail at `p`, one explicit descent step lowers
the QEF, so `p` is not a minimizer. -/
theorem descent_step (d : QefData) (p : Vec3)
    (hQ : 0 ≤ dot (qefMatVec d p - qefB d) (qefMatVec d (qefMatVec d p - qefB d)))
    (hgne : qefMatVec d p - qefB d ≠ 0) :
    ∃ q : Vec3, qefDataEval d q < qefDataEval d p := by
  set g := qefMatVec d p - qefB d with hgdef
  have hN : 0 < norm2 g := norm2_pos hgne
  have hN' : 0 < dot g g := hN
  have hden : (0 : ℚ) < dot g (qefMatVec d g) + 1 := by linarith
  set ε := norm2 g / (dot g (qefMatVec d g) + 1) with hedef
  have hε : 0 < ε := div_pos hN hden
  have hεeq : ε * (dot g (qefMatVec d g) + 1) = norm2 g := by
    rw [hedef]
    exact div_mul_cancel₀ _ (ne_of_gt hden)
  refine ⟨p - ε • g, ?_⟩
  have hexp := qefDataEval_expand d p (p - ε • g)
  have hu : p - ε • g - p = (-ε) • g := by
    apply Vec3.ext_comp <;>
      dsimp only [Vec3.subX, Vec3.subY, Vec3.subZ, Vec3.smulX, Vec3.smulY, Vec3.smulZ] <;>
      ring
  rw [hu, ← hgdef, dot_smul_left, qefMatVec_smul, dot_smul_right, dot_smul_left] at hexp
  have hQN : ε * dot g (qefMatVec d g) = norm2 g - ε := by linarith [hεeq]
  have hkey : qefDataEval d (p - ε • g) - qefDataEval d p = -(ε * norm2 g) - ε * ε := by
    rw [hexp]
    have : norm2 g = dot g g := rfl
    nlinarith [hQN, this]
  have hpos : 0 < ε * norm2 g := mul_pos hε hN
  have hpos2 : 0 < ε * ε := mul_pos hε hε
  linarith

/-- `pinvApply d r` solves `A v = r` and is orthogonal to `ker A`, given
that `r` is orthogonal to `ker A` and vanishes when the trace does. -/
theorem pinv_correct (d : QefData) (r : Vec3)
    (hperp : ∀ u : Vec3, qefMatVec d u = 0 → dot u r = 0)
    (hr0 : qefTrace d = 0 → r = 0) :
    qefMatVec d (pinvApply d r) = r ∧
      ∀ u : Vec3, qefMatVec d u = 0 → dot u (pinvApply d r) = 0 := by
  unfold pinvApply
  split_ifs with hdet hs ht
  · constructor
    · rw [qefMatVec_smul, matVec_adjVec]
      apply Vec3.ext_comp <;>
        dsimp only [Vec3.smulX, Vec3.smulY, Vec3.smulZ] <;>
        rw [← mul_assoc, inv_mul_cancel₀ hdet, one_mul]
    · intro u hu
      have h1 := adjVec_matVec d u
      rw [hu] at h1
      have h2 : adjVec d 0 = 0 := by
        unfold adjVec
        apply Vec3.ext_comp <;>
          dsimp only [Vec3.zeroX, Vec3.zeroY, Vec3.zeroZ] <;> ring
      rw [h2] at h1
      have hx := congrArg Vec3.x h1
      have hy := congrArg Vec3.y h1
      have hz := congrArg Vec3.z h1
      rw [Vec3.zeroX, Vec3.smulX] at hx
      rw [Vec3.zeroY, Vec3.smulY] at hy
      rw [Vec3.zeroZ, Vec3.smulZ] at hz
      have hu0 : u = 0 := by
        apply Vec3.ext_comp
        · rw [Vec3.zeroX]
          exact ((mul_eq_zero.mp hx.symm).resolve_left hdet)
        · rw [Vec3.zeroY]
          exact ((mul_eq_zero.mp hy.symm).resolve_left hdet)
        · rw [Vec3.zeroZ]
          exact ((mul_eq_zero.mp hz.symm).resolve_left hdet)
      rw [hu0, dot_zero_left]
  · have hdet0 : qefDet d = 0 := not_not.mp hdet
    set w := qefMatVec d (qefMatVec d r) - qefTrace d • qefMatVec d r +
      qefMinor2 d • r with hwdef
    have hwker : qefMatVec d w = 0 := by
      rw [hwdef, qefMatVec_add, qefMatVec_sub, qefMatVec_smul, qefMatVec_smul,
        cayley, hdet0]
      apply Vec3.ext_comp <;>
        dsimp only [Vec3.addX, Vec3.addY, Vec3.addZ, Vec3.subX, Vec3.subY, Vec3.subZ,
          Vec3.smulX, Vec3.smulY, Vec3.smulZ, Vec3.zeroX, Vec3.zeroY, Vec3.zeroZ] <;>
        ring
    have hwr : dot w r = 0 := hperp w hwker
    have hwAr : dot w (qefMatVec d r) = 0 := by
      rw [qefMatVec_symm, hwker, dot_zero_right]
    have hwA2r : dot w (qefMatVec d (qefMatVec d r)) = 0 := by
      rw [qefMatVec_symm, hwker, dot_zero_right]
    have hww : dot w w = 0 := by
      nth_rewrite 2 [hwdef]
      rw [dot_add_right, dot_sub_right, dot_smul_right, dot_smul_right,
        hwA2r, hwAr, hwr]
      ring
    have hw0 : w = 0 := eq_zero_of_norm2_eq_zero hww
    have hA2 : qefMatVec d (qefMatVec d r) =
        qefTrace d • qefMatVec d r - qefMinor2 d • r := by
      have hid : qefMatVec d (qefMatVec d r) -
          (qefTrace d • qefMatVec d r - qefMinor2 d • r) = w := by
        rw [hwdef]
        apply Vec3.ext_comp <;>
          dsimp only [Vec3.addX, Vec3.addY, Vec3.addZ, Vec3.subX, Vec3.subY, Vec3.subZ,
            Vec3.smulX, Vec3.smulY, Vec3.smulZ] <;>
          ring
      rw [hw0] at hid
      exact Vec3.sub_eq_zero_iff.mp hid
    constructor
    · rw [qefMatVec_smul, qefMatVec_sub, qefMatVec_smul, hA2]
      have hsimp : qefTrace d • qefMatVec d r -
          (qefTrace d • qefMatVec d r - qefMinor2 d • r) = qefMinor2 d • r := by
        apply Vec3.ext_comp <;>
          dsimp only [Vec3.subX, Vec3.subY, Vec3.subZ,
            Vec3.smulX, Vec3.smulY, Vec3.smulZ] <;>
          ring
      rw [hsimp]
      apply Vec3.ext_comp <;>
        dsimp only [Vec3.smulX, Vec3.smulY, Vec3.smulZ] <;>
        rw [← mul_assoc, inv_mul_cancel₀ hs, one_mul]
    · intro u hu
      rw [dot_smul_right, dot_sub_right, dot_smul_right, hperp u hu]
      have hAu : dot u (qefMatVec d r) = 0 := by
        rw [qefMatVec_symm, hu, dot_zero_right]
      rw [hAu]
      ring
  · have hdet0 : qefDet d = 0 := not_not.mp hdet
    have hs0 : qefMinor2 d = 0 := not_not.mp hs
    set w := qefMatVec d (qefMatVec d r) - qefTrace d • qefMatVec d r with hwdef
    have hwker : qefMatVec d w = 0 := by
      rw [hwdef, qefMatVec_sub, qefMatVec_smul, cayley, hdet0, hs0]
      apply Vec3.ext_comp <;>
        dsimp only [Vec3.addX, Vec3.addY, Vec3.addZ, Vec3.subX, Vec3.subY, Vec3.subZ,
          Vec3.smulX, Vec3.smulY, Vec3.smulZ, Vec3.zeroX, Vec3.zeroY, Vec3.zeroZ] <;>
        ring
    have hwAr : dot w (qefMatVec d r) = 0 := by
      rw [qefMatVec_symm, hwker, dot_zero_right]
    have hwA2r : dot w (qefMatVec d (qefMatVec d r)) = 0 := by
      rw [qefMatVec_symm, hwker, dot_zero_right]
    have hww : dot w w = 0 := by
      nth_rewrite 2 [hwdef]
      rw [dot_sub_right, dot_smul_right, hwA2r, hwAr]
      ring
    have hw0 : w = 0 := eq_zero_of_norm2_eq_zero hww
    have hA2 : qefMatVec d (qefMatVec d r) = qefTrace d • qefMatVec d r := by
      have hid := hwdef.symm
      rw [hw0] at hid
      exact Vec3.sub_eq_zero_iff.mp hid
    set u2 := qefMatVec d r - qefTrace d • r with hu2def
    have hu2ker : qefMatVec d u2 = 0 := by
      rw [hu2def, qefMatVec_sub, qefMatVec_smul, hA2]
      apply Vec3.ext_comp <;>
        dsimp only [Vec3.subX, Vec3.subY, Vec3.subZ, Vec3.smulX, Vec3.smulY, Vec3.smulZ,
          Vec3.zeroX, Vec3.zeroY, Vec3.zeroZ] <;>
        ring
    have hu2r : dot u2 r = 0 := hperp u2 hu2ker
    have hu2Ar : dot u2 (qefMatVec d r) = 0 := by
      rw [qefMatVec_symm, hu2ker, dot_zero_right]
    have hu2u2 : dot u2 u2 = 0 := by
      nth_rewrite 2 [hu2def]
      rw [dot_sub_right, dot_smul_right, hu2Ar, hu2r]
      ring
    have hu20 : u2 = 0 := eq_zero_of_norm2_eq_zero hu2u2
    have hAr : qefMatVec d r = qefTrace d • r := by
      have hid := hu2def.symm
      rw [hu20] at hid
      exact Vec3.sub_eq_zero_iff.mp hid
    constructor
    · rw [qefMatVec_smul, hAr]
      apply Vec3.ext_comp <;>
        dsimp only [Vec3.smulX, Vec3.smulY, Vec3.smulZ] <;>
        rw [← mul_assoc, inv_mul_cancel₀ ht, one_mul]
    · intro u hu
      rw [dot_smul_right, hperp u hu]
      ring
  · have ht0 : qefTrace d = 0 := not_not.mp ht
    have hr := hr0 ht0
    constructor
    · rw [qefMatVec_zero, hr]
    · intro u hu
      rw [dot_zero_right]

/-- A QEF minimizer satisfies the normal equations. -/
theorem minimizer_to_normal (l : List (Vec3 × Vec3)) (p : Vec3)
    (hmin : ∀ q : Vec3, QefVal l p ≤ QefVal l q) :
    qefMatVec (accumulateQef l) p = qefB (accumulateQef l) := by
  by_contra hne
  have hgne : qefMatVec (accumulateQef l) p - qefB (accumulateQef l) ≠ 0 := by
    intro h0
    exact hne (Vec3.sub_eq_zero_iff.mp h0)
  obtain ⟨q, hq⟩ := descent_step (accumulateQef l) p (quadform_nonneg l _) hgne
  rw [qefDataEval_accumulate, qefDataEval_accumulate] at hq
  exact absurd (hmin q) (by linarith)

theorem addPlaneData_rcomm (d : QefData) (p q : Vec3 × Vec3) :
    addPlaneData (addPlaneData d p.1 p.2) q.1 q.2 =
      addPlaneData (addPlaneData d q.1 q.2) p.1 p.2 := by
  unfold addPlaneData
  simp only [QefData.mk.injEq]
  and_intros <;> first | rfl | ring

theorem accumulateQef_perm (a b : List (Vec3 × Vec3)) (hp : a.Perm b) :
    accumulateQef a = accumulateQef b := by
  have hrc : RightCommutative
      (fun (d : QefData) (pl : Vec3 × Vec3) => addPlaneData d pl.1 pl.2) :=
    ⟨fun d p q => addPlaneData_rcomm d p q⟩
  unfold accumulateQef
  exact hp.foldl_eq emptyQefData

theorem massPoint_perm (a b : List Vec3) (hp : a.Perm b) :
    massPoint a = massPoint b := by
  unfold massPoint
  rw [hp.length_eq, sumV_components a, sumV_components b,
    (hp.map Vec3.x).sum_eq, (hp.map Vec3.y).sum_eq, (hp.map Vec3.z).sum_eq]

/-- C3: For every nonempty list of accumulated planes (in particular every
rank-deficient configuration — a single plane, parallel planes, planes
describing a sheet or a line), `solve` returns a minimizer of the QEF that
is, among all minimizers, the unique one closest to the mass point (the
arithmetic mean of all added points), and the result is independent of the
order in which the planes were added. -/
theorem solveQef_spec (planes : List (Vec3 × Vec3)) (hne : planes ≠ []) :
    (∀ p : Vec3, QefVal planes (solveQef planes) ≤ QefVal planes p) ∧
      (∀ p : Vec3, QefVal planes p ≤ QefVal planes (solveQef planes) →
        p ≠ solveQef planes →
        norm2 (solveQef planes - massPoint (planes.map fun pl => pl.1)) <
          norm2 (p - massPoint (planes.map fun pl => pl.1))) ∧
      ∀ planes' : List (Vec3 × Vec3), planes'.Perm planes →
        solveQef planes' = solveQef planes := by
  set m := massPoint (planes.map fun pl => pl.1) with hm
  set d := accumulateQef planes with hd
  set r := qefB d - qefMatVec d m with hrdef
  set v := pinvApply d r with hv
  have hq : solveQef planes = m + v := rfl
  have hker_b : ∀ u : Vec3, qefMatVec d u = 0 → dot u (qefB d) = 0 := by
    rw [hd]
    exact fun u hu => ker_perp_b planes u hu
  have htz : qefTrace d = 0 → (∀ u : Vec3, qefMatVec d u = 0) ∧ qefB d = 0 := by
    rw [hd]
    exact trace_zero_degenerate planes
  have hmin_of_normal : ∀ p : Vec3, qefMatVec d p = qefB d →
      ∀ q : Vec3, QefVal planes p ≤ QefVal planes q := by
    rw [hd]
    exact normal_to_minimizer planes
  have hnormal_of_min : ∀ p : Vec3, (∀ q : Vec3, QefVal planes p ≤ QefVal planes q) →
      qefMatVec d p = qefB d := by
    rw [hd]
    exact minimizer_to_normal planes
  have hperp : ∀ u : Vec3, qefMatVec d u = 0 → dot u r = 0 := by
    intro u hu
    rw [hrdef, dot_sub_right, hker_b u hu, qefMatVec_symm, hu, dot_zero_right]
    ring
  have hr0 : qefTrace d = 0 → r = 0 := by
    intro ht
    obtain ⟨hA, hb⟩ := htz ht
    rw [hrdef, hb, hA m]
    apply Vec3.ext_comp <;>
      dsimp only [Vec3.subX, Vec3.subY, Vec3.subZ, Vec3.zeroX, Vec3.zeroY, Vec3.zeroZ] <;>
      ring
  obtain ⟨hAv, hvperp⟩ := pinv_correct d r hperp hr0
  rw [← hv] at hAv
  simp only [← hv] at hvperp
  have hsolve_normal : qefMatVec d (solveQef planes) = qefB d := by
    rw [hq, qefMatVec_add, hAv, hrdef]
    apply Vec3.ext_comp <;>
      dsimp only [Vec3.addX, Vec3.addY, Vec3.addZ, Vec3.subX, Vec3.subY, Vec3.subZ] <;>
      ring
  have hconj1 : ∀ p : Vec3, QefVal planes (solveQef planes) ≤ QefVal planes p :=
    hmin_of_normal (solveQef planes) hsolve_normal
  refine ⟨hconj1, ?_, ?_⟩
  · intro p hle hpne
    have hpmin : ∀ q : Vec3, QefVal planes p ≤ QefVal planes q :=
      fun q2 => le_trans hle (hconj1 q2)
    have hpnormal := hnormal_of_min p hpmin
    have hker : qefMatVec d (p - solveQef planes) = 0 := by
      rw [qefMatVec_sub, hpnormal, hsolve_normal]
      apply Vec3.ext_comp <;>
        dsimp only [Vec3.subX, Vec3.subY, Vec3.subZ, Vec3.zeroX, Vec3.zeroY, Vec3.zeroZ] <;>
        ring
    have hperpv : dot (p - solveQef planes) v = 0 := hvperp _ hker
    have hqm : solveQef planes - m = v := by
      rw [hq]
      apply Vec3.ext_comp <;>
        dsimp only [Vec3.addX, Vec3.addY, Vec3.addZ, Vec3.subX, Vec3.subY, Vec3.subZ] <;>
        ring
    have hpyth : norm2 (p - m) =
        norm2 (p - solveQef planes) + norm2 (solveQef planes - m) +
          2 * dot (p - solveQef planes) (solveQef planes - m) := by
      unfold norm2 dot
      dsimp only [Vec3.subX, Vec3.subY, Vec3.subZ]
      ring
    rw [hqm, hperpv] at hpyth
    rw [hqm]
    have hpq0 : p - solveQef planes ≠ 0 := by
      intro h0
      exact hpne (Vec3.sub_eq_zero_iff.mp h0)
    have hpos := norm2_pos hpq0
    linarith
  · intro planes' hperm
    have haccum : accumulateQef planes' = accumulateQef planes :=
      accumulateQef_perm planes' planes hperm
    have hmass : massPoint (planes'.map fun pl => pl.1) =
        massPoint (planes.map fun pl => pl.1) :=
      massPoint_perm _ _ (hperm.map _)
    unfold solveQef
    rw [haccum, hmass]

/-- Two parallel planes with the same normal and different points (the
claim's cited example), and the same pair in swapped insertion order. -/
def planesPar : List (Vec3 × Vec3) :=
  [(⟨0, 0, 0⟩, ⟨1, 0, 0⟩), (⟨1, 2, 0⟩, ⟨1, 0, 0⟩)]

def planesParSwap : List (Vec3 × Vec3) :=
  [(⟨1, 2, 0⟩, ⟨1, 0, 0⟩), (⟨0, 0, 0⟩, ⟨1, 0, 0⟩)]

theorem solveQef_spec_witness :
    planesPar ≠ [] ∧
      QefVal planesPar (solveQef planesPar) ≤ QefVal planesPar 0 ∧
      solveQef planesParSwap = solveQef planesPar := by
  have hne : planesPar ≠ [] := by
    unfold planesPar
    exact List.cons_ne_nil _ _
  have hperm : planesParSwap.Perm planesPar := by
    unfold planesParSwap planesPar
    exact List.Perm.swap _ _ _
  have h := solveQef_spec planesPar hne
  exact ⟨hne, h.1 0, h.2.2 planesParSwap hperm⟩

end Isomesh
